import Mathlib

/-
Shallow embedding of `src/extract_keyphrases.py` (doc-hub keyphrase
extraction script).

Modelling conventions:
* Python `str` is Lean `String` (or `List Char` for character-level work);
  `str.lower` and the whitespace class of `str.strip` / regex `\s` are
  modelled on the ASCII range, which is what the documents and the claims
  exercise.
* Python `int` is Lean `Int` (arbitrary precision, may be negative).
* Python dictionaries are insertion-ordered association lists, which is
  exactly the guaranteed iteration order of CPython 3.7+ dicts, the
  `collections.Counter` and the JSON trees produced by `json.load`.
* Code that can raise (`TypeError`/`KeyError`/`AttributeError` on
  unexpected shapes) is embedded in `Except String`.
-/

/-- ASCII model of the whitespace class used by Python `str.strip` and the
regex `\s`: space, tab, newline, carriage return, vertical tab, form feed. -/
def isSpaceB (c : Char) : Bool :=
  c == ' ' || c == '\t' || c == '\n' || c == '\r' || c == '\x0b' || c == '\x0c'

/-- ASCII model of Python `str.lower` on a single character. -/
def lowerChar (c : Char) : Char :=
  if 65 ≤ c.toNat ∧ c.toNat ≤ 90 then Char.ofNat (c.toNat + 32) else c

/-- Python `s.lower()` (ASCII model). -/
def pyLower (s : String) : String := String.mk (s.data.map lowerChar)

/-- Python `s.lstrip()` on character lists. -/
def lstripL (l : List Char) : List Char := l.dropWhile isSpaceB

/-- Python `s.rstrip()` on character lists. -/
def rstripL (l : List Char) : List Char := (l.reverse.dropWhile isSpaceB).reverse

/-- Python `s.strip()` on character lists: drop whitespace at both ends. -/
def pyStripL (l : List Char) : List Char := rstripL (lstripL l)

/-- Python `s.strip()`. -/
def pyStrip (s : String) : String := String.mk (pyStripL s.data)

/-- The normalisation used throughout `deduplicate_keyphrases`:
`phrase.lower().strip()`. -/
def pyNorm (s : String) : String := pyStrip (pyLower s)

/-- Python `sep.join(parts)`. -/
def pyJoinSep (sep : String) : List String → String
  | [] => ""
  | [s] => s
  | s :: rest => s ++ sep ++ pyJoinSep sep rest

/-
`deduplicate_keyphrases` (src/extract_keyphrases.py lines 335-378).

`Counter(all_phrases)` is an insertion-ordered map from each distinct raw
phrase to its multiplicity, keys in first-encounter order.
-/

/-- One step of building `Counter(all_phrases)`: count one phrase. -/
def counterAdd (acc : List (String × Nat)) (p : String) : List (String × Nat) :=
  if acc.any (·.1 == p) then
    acc.map (fun q => if q.1 == p then (q.1, q.2 + 1) else q)
  else acc ++ [(p, 1)]

/-- `Counter(all_phrases)`: distinct phrases with multiplicities, in
first-encounter order. -/
def counterOf (all_phrases : List String) : List (String × Nat) :=
  all_phrases.foldl counterAdd []

/-- `key in d` for the insertion-ordered dict model. -/
def assocContains (l : List (String × Nat)) (k : String) : Bool := l.any (·.1 == k)

/-- `d.get(key, default)` for the dict model. -/
def assocGet (l : List (String × Nat)) (k : String) (d : Nat) : Nat :=
  match l.find? (·.1 == k) with
  | some p => p.2
  | none => d

/-- `d[key] = v` for the dict model: update in place if present, else append. -/
def assocSet (l : List (String × Nat)) (k : String) (v : Nat) : List (String × Nat) :=
  if l.any (·.1 == k) then l.map (fun q => if q.1 == k then (q.1, v) else q)
  else l ++ [(k, v)]

/-- `d.pop(key)`'s effect on the dict (the popped value is read via `assocGet`). -/
def assocPop (l : List (String × Nat)) (k : String) : List (String × Nat) :=
  l.filter (fun q => !(q.1 == k))

/-- Python `s.endswith('s')`. -/
def endsWithS (s : String) : Bool :=
  match s.data.getLast? with
  | some c => c == 's'
  | none => false

/-- Python `s[:-1]`: drop the final character. -/
def dropLastChar (s : String) : String := String.mk s.data.dropLast

/-- The singular/plural merge body of `deduplicate_keyphrases` for one
`(phrase, count)` item of the counter (lines 342-354):
if the normalised key ends in `"s"` and its singular form is an entry, merge
both under the plural key; else if the plural form is an entry, add the count
to it; else add the count under the phrase's own normalised key. -/
def mergeStep (acc : List (String × Nat)) (pc : String × Nat) : List (String × Nat) :=
  let norm_key := pyNorm pc.1
  if endsWithS norm_key && assocContains acc (dropLastChar norm_key) then
    assocSet (assocPop acc (dropLastChar norm_key)) norm_key
      (assocGet acc norm_key 0 + pc.2 + assocGet acc (dropLastChar norm_key) 0)
  else if assocContains acc (norm_key ++ "s") then
    assocSet acc (norm_key ++ "s") (assocGet acc (norm_key ++ "s") 0 + pc.2)
  else
    assocSet acc norm_key (assocGet acc norm_key 0 + pc.2)

/-- The `normalized` accumulator after processing all counter items. -/
def buildNormalized (counter : List (String × Nat)) : List (String × Nat) :=
  counter.foldl mergeStep []

/-- Stable insertion of one element into an already-processed list, keeping
`x` after every `y` with `le y x` (the placement of Python's stable sort). -/
def sInsert (le : α → α → Bool) (x : α) : List α → List α
  | [] => [x]
  | y :: l => if le y x then y :: sInsert le x l else x :: y :: l

/-- Stable sort by the boolean total preorder `le`; agrees with Python
`sorted` because both are stable with respect to the same comparator. -/
def sSort (le : α → α → Bool) (l : List α) : List α :=
  l.foldl (fun acc x => sInsert le x acc) []

/-- The comparator of `sorted(normalized.items(), key=lambda x: (-x[1], x[0]))`:
tuple order on `(-count, key)`, i.e. descending count, then ascending key. -/
def entryLe (a b : String × Nat) : Bool :=
  decide (b.2 < a.2) || (a.2 == b.2 && !(decide (b.1 < a.1)))

/-- `sorted_phrases` of `deduplicate_keyphrases` (line 357). -/
def sortedPhrases (all_phrases : List String) : List (String × Nat) :=
  sSort entryLe (buildNormalized (counterOf all_phrases))

/-- Recover the representative original-casing string for a normalised key:
first raw input whose normalised form equals the key, else (defensively) the
key itself (lines 366-373). -/
def recoverRep (all_phrases : List String) (k : String) : String :=
  match all_phrases.find? (fun o => pyNorm o == k) with
  | some o => o
  | none => k

/-- The output loop of `deduplicate_keyphrases` (lines 360-378): walk the
sorted entries, emit a representative for each unseen key, and break as soon
as the result has reached `target_count` entries (checked after appending). -/
def recoverLoop (all_phrases : List String) (target_count : Int) :
    List (String × Nat) → List String → List String → List String
  | [], _, result => result
  | (k, _) :: rest, seen, result =>
    if seen.contains k then
      if target_count ≤ (result.length : Int) then result
      else recoverLoop all_phrases target_count rest seen result
    else
      if target_count ≤ ((result ++ [recoverRep all_phrases k]).length : Int) then
        result ++ [recoverRep all_phrases k]
      else recoverLoop all_phrases target_count rest (k :: seen)
        (result ++ [recoverRep all_phrases k])

/-- `deduplicate_keyphrases(all_phrases, target_count)` (lines 335-378). -/
def deduplicate_keyphrases (all_phrases : List String) (target_count : Int) : List String :=
  recoverLoop all_phrases target_count (sortedPhrases all_phrases) [] []

/-
`strip_html_tags` (src/extract_keyphrases.py lines 143-149):
```
if not text: return ""
clean = re.sub(r'<[^>]+>', ' ', text)
clean = re.sub(r'\s+', ' ', clean)
return clean.strip()
```
The first substitution scans left to right; at a `'<'` the greedy `[^>]+`
runs to the first following `'>'` and the match succeeds exactly when at
least one character stands between them; the whole match is replaced by one
space and scanning resumes after the `'>'`. The second substitution replaces
each maximal whitespace run by a single space. The recursion of the scan jumps
past each match, so it is defined with a fuel parameter (the list length,
which bounds the number of steps) to stay kernel-computable; the unfolding
equations are proved below.
-/

/-- Split a character list at its first `'>'`: `some (pre, post)` with
`l = pre ++ '>' :: post` and no `'>'` in `pre`; `none` when `l` has no
`'>'`. -/
def splitAtGt (l : List Char) : Option (List Char × List Char) :=
  match l.dropWhile (fun c => !(c == '>')) with
  | [] => none
  | _ :: post => some (l.takeWhile (fun c => !(c == '>')), post)

/-- Fuelled scan of `re.sub(r'<[^>]+>', ' ', ·)`. -/
def subTagsF : Nat → List Char → List Char
  | 0, _ => []
  | _ + 1, [] => []
  | fuel + 1, c :: rest =>
    if c == '<' then
      match splitAtGt rest with
      | some (pre, post) =>
        if pre.isEmpty then c :: subTagsF fuel rest else ' ' :: subTagsF fuel post
      | none => c :: subTagsF fuel rest
    else c :: subTagsF fuel rest

/-- `re.sub(r'<[^>]+>', ' ', ·)` on character lists. -/
def subTags (l : List Char) : List Char := subTagsF l.length l

/-- Fuelled scan of `re.sub(r'\s+', ' ', ·)`. -/
def collapseWsF : Nat → List Char → List Char
  | 0, _ => []
  | _ + 1, [] => []
  | fuel + 1, c :: rest =>
    if isSpaceB c then ' ' :: collapseWsF fuel (rest.dropWhile isSpaceB)
    else c :: collapseWsF fuel rest

/-- `re.sub(r'\s+', ' ', ·)` on character lists: each maximal whitespace run
becomes a single space. -/
def collapseWs (l : List Char) : List Char := collapseWsF l.length l

/-- `strip_html_tags(text)` (lines 143-149): tag removal, whitespace
collapse, then strip; the empty string short-circuits (`if not text`). -/
def strip_html_tags (s : String) : String :=
  if s == "" then ""
  else String.mk (pyStripL (collapseWs (subTags s.data)))

/-
The per-document loop of `main` (src/extract_keyphrases.py lines 421-444).

`process_file` (load + parse + summarise + LLM call, lines 312-332) is the
single-document boundary: any exception it raises — `json.load` parse
failures, summariser type errors, LLM/shape failures — is caught by the
`except` clause of the loop and recorded under the document's path. It is
modelled as an oracle returning either `(doc_type, keyphrases)` (the values
read off the result dict by `result.get('type', 'unknown')` and
`result.get('keyphrases', [])`) or an error description.
-/

/-- One entry of `results_by_file`: either `{"type": ..., "keyphrases": ...}`
or `{"error": ...}`. -/
inductive FileRecord where
  | ok (doc_type : String) (keyphrases : List String)
  | err (msg : String)
deriving DecidableEq

/-- The body of the `for` loop of `main`, threading the accumulated
`all_keyphrases` and `results_by_file` containers. -/
def batchAux (process_file : String → Except String (String × List String)) :
    List String → List String × List (String × FileRecord) →
    List String × List (String × FileRecord)
  | [], acc => acc
  | f :: rest, (all_keyphrases, results_by_file) =>
    match process_file f with
    | .ok (doc_type, keyphrases) =>
      batchAux process_file rest
        (all_keyphrases ++ keyphrases,
         results_by_file ++ [(f, .ok doc_type keyphrases)])
    | .error e =>
      batchAux process_file rest (all_keyphrases, results_by_file ++ [(f, .err e)])

/-- The whole batch loop of `main`: collected keyphrases and per-file
records after processing every file (progress printing and the
`stats_by_type` tallies are omitted; they do not feed back into the loop). -/
def processBatch (process_file : String → Except String (String × List String))
    (files : List String) : List String × List (String × FileRecord) :=
  batchAux process_file files ([], [])

/-- A concrete three-document oracle whose second document fails, used to
instantiate the isolation theorem. -/
def pfThreeDocs (f : String) : Except String (String × List String) :=
  if f == "doc2" then .error "Expecting value: line 1 column 1 (char 0)"
  else .ok ("guide", [f ++ " keyphrase"])

/-
JSON-like Python values as produced by `json.load`: strings, numbers,
booleans, null, arrays and insertion-ordered objects. Python `float` plays
no role in the claims and is subsumed under `int` for scalars.
-/

/-- A parsed document tree (the `content` values of the script). -/
inductive PyVal where
  | str (s : String)
  | int (n : Int)
  | bool (b : Bool)
  | none
  | list (items : List PyVal)
  | dict (entries : List (String × PyVal))

/-- The `priority_keys` list of `extract_text_content` (lines 160-166),
including its intentional duplicate `'bodyText'`. -/
def priorityKeys : List String :=
  ["header", "pageTitleSuffix", "introductionHeader", "introductionBodyText",
   "useCaseHeader", "useCaseBodyText", "useCaseEndpoint", "useCaseMethod",
   "sectionHeader", "bodyText", "subSectionHeader",
   "parameter", "bodyText", "details"]

/-- First-match association lookup into an object's entries. -/
def dictFind (entries : List (String × PyVal)) (k : String) : Option PyVal :=
  (entries.find? (·.1 == k)).map (·.2)

/-- `" ".join(filter(None, texts))` (line 185). -/
def joinFilter (texts : List String) : String :=
  pyJoinSep " " (texts.filter (fun s => !(s == "")))

/-- The first loop of the mapping case of `extract_text_content` (lines
168-173): for each priority key present, a string value contributes its
`strip_html_tags`, a mapping or sequence value contributes the recursive
extraction `go` (already at depth `max_depth - 1`), anything else nothing. -/
def prioPass (go : PyVal → String) : List String → List (String × PyVal) → List String
  | [], _ => []
  | k :: ks, entries =>
    (match dictFind entries k with
     | some (PyVal.str s) => [strip_html_tags s]
     | some (PyVal.dict e) => [go (PyVal.dict e)]
     | some (PyVal.list l) => [go (PyVal.list l)]
     | _ => []) ++ prioPass go ks entries

/-- One entry of the second loop of the mapping case (lines 176-179): a
non-priority key whose value is a mapping or sequence is recursed into;
string and scalar values under non-priority keys contribute nothing. -/
def restSeg (go : PyVal → String) (k : String) (v : PyVal) : List String :=
  if priorityKeys.contains k then []
  else
    match v with
    | PyVal.dict e => [go (PyVal.dict e)]
    | PyVal.list l => [go (PyVal.list l)]
    | _ => []

/-- The second loop of the mapping case (lines 176-179). -/
def restPass (go : PyVal → String) : List (String × PyVal) → List String
  | [] => []
  | (k, v) :: rest => restSeg go k v ++ restPass go rest

/-- The sequence case (lines 181-183): recurse into every element. -/
def listPass (go : PyVal → String) : List PyVal → List String
  | [] => []
  | v :: rest => go v :: listPass go rest

/-- `extract_text_content` with the depth already converted to fuel:
`etcVal n v` is the Python call with `max_depth = n` (a nonpositive depth is
fuel 0 and returns `""`; every recursive call decrements the depth). A bare
string node contributes nothing: only the mapping and sequence cases build
any text. -/
def etcVal : Nat → PyVal → String
  | 0, _ => ""
  | n + 1, v =>
    match v with
    | PyVal.dict entries =>
      joinFilter (prioPass (etcVal n) priorityKeys entries ++ restPass (etcVal n) entries)
    | PyVal.list items => joinFilter (listPass (etcVal n) items)
    | _ => ""

/-- `extract_text_content(data, max_depth)` (lines 152-185). -/
def extract_text_content (data : PyVal) (max_depth : Int) : String :=
  etcVal max_depth.toNat data

/-
Specification-side reading of the walker for the amended C4: the flat,
in-order list of leaf fragments — the normalised string values found at
priority keys, gathered through recursion into mapping/sequence values
(priority keys first, then the remaining keys in insertion order, then
sequence elements in order) — which the walker space-joins after dropping
empty fragments.
-/

/-- Fragments contributed by the priority-key loop. -/
def fragsPrio (go : PyVal → List String) : List String → List (String × PyVal) → List String
  | [], _ => []
  | k :: ks, entries =>
    (match dictFind entries k with
     | some (PyVal.str s) => [strip_html_tags s]
     | some (PyVal.dict e) => go (PyVal.dict e)
     | some (PyVal.list l) => go (PyVal.list l)
     | _ => []) ++ fragsPrio go ks entries

/-- Fragments contributed by one entry of the non-priority-key loop. -/
def fragsRestSeg (go : PyVal → List String) (k : String) (v : PyVal) : List String :=
  if priorityKeys.contains k then []
  else
    match v with
    | PyVal.dict e => go (PyVal.dict e)
    | PyVal.list l => go (PyVal.list l)
    | _ => []

/-- Fragments contributed by the non-priority-key loop. -/
def fragsRest (go : PyVal → List String) : List (String × PyVal) → List String
  | [] => []
  | (k, v) :: rest => fragsRestSeg go k v ++ fragsRest go rest

/-- Fragments contributed by a sequence's elements. -/
def fragsList (go : PyVal → List String) : List PyVal → List String
  | [] => []
  | v :: rest => go v ++ fragsList go rest

/-- The flat leaf-fragment list of the walker at fuel `n`. -/
def fragsVal : Nat → PyVal → List String
  | 0, _ => []
  | n + 1, v =>
    match v with
    | PyVal.dict entries =>
      fragsPrio (fragsVal n) priorityKeys entries ++ fragsRest (fragsVal n) entries
    | PyVal.list items => fragsList (fragsVal n) items
    | _ => []


/-
Dynamic Python operations used by `detect_document_type` and
`prepare_document_summary` (lines 120-140 and 188-268), embedded in
`Except String`; the error strings name the exception CPython raises on a
value of the wrong shape.
-/

/-- Python truthiness `bool(v)` is false. -/
def pyFalsy : PyVal → Bool
  | PyVal.str s => s == ""
  | PyVal.int n => n == 0
  | PyVal.bool b => !b
  | PyVal.none => true
  | PyVal.list l => l.isEmpty
  | PyVal.dict e => e.isEmpty

/-- Python `==` between a JSON value and a `str` key. -/
def eqStr (v : PyVal) (s : String) : Bool :=
  match v with
  | PyVal.str t => t == s
  | _ => false

/-- Substring scan on character lists. -/
def strInL (needle : List Char) : List Char → Bool
  | [] => needle.isEmpty
  | c :: rest => needle.isPrefixOf (c :: rest) || strInL needle rest

/-- Python `needle in haystack` for strings. -/
def strIn (needle hay : String) : Bool := strInL needle.data hay.data

/-- Python `s.startswith(pre)`. -/
def strStartsWith (s pre : String) : Bool := pre.data.isPrefixOf s.data

/-- Python string comparison `a <= b` used by `sorted`. -/
def strLe (a b : String) : Bool := !(decide (b < a))

/-- Python `key in container`: dict key test, list membership, substring
test for strings; `TypeError` otherwise. -/
def pyContains (container : PyVal) (key : String) : Except String Bool :=
  match container with
  | PyVal.dict e => Except.ok (e.any (fun p => p.1 == key))
  | PyVal.list l => Except.ok (l.any (fun v => eqStr v key))
  | PyVal.str s => Except.ok (strIn key s)
  | _ => Except.error "TypeError: argument of type is not iterable"

/-- Python `container[key]` with a string key. -/
def pyGetItem (container : PyVal) (key : String) : Except String PyVal :=
  match container with
  | PyVal.dict e =>
    match dictFind e key with
    | some v => Except.ok v
    | Option.none => Except.error "KeyError"
  | PyVal.list _ => Except.error "TypeError: list indices must be integers"
  | PyVal.str _ => Except.error "TypeError: string indices must be integers"
  | _ => Except.error "TypeError: object is not subscriptable"

/-- Python `v.get(key, default)` — a dict method, `AttributeError` on any
other value. -/
def pyGet (v : PyVal) (key : String) (dflt : PyVal) : Except String PyVal :=
  match v with
  | PyVal.dict e => Except.ok ((dictFind e key).getD dflt)
  | _ => Except.error "AttributeError: object has no attribute get"

/-- Python iteration `for x in v`: list elements, string characters (as
1-character strings), dict keys. -/
def pyIter (v : PyVal) : Except String (List PyVal) :=
  match v with
  | PyVal.list l => Except.ok l
  | PyVal.str s => Except.ok (s.data.map (fun c => PyVal.str (String.mk [c])))
  | PyVal.dict e => Except.ok (e.map (fun p => PyVal.str p.1))
  | _ => Except.error "TypeError: object is not iterable"

/-- Python `v.items()` — a dict method. -/
def pyItems (v : PyVal) : Except String (List (String × PyVal)) :=
  match v with
  | PyVal.dict e => Except.ok e
  | _ => Except.error "AttributeError: object has no attribute items"

/-- Python `v.keys()` — a dict method. -/
def pyKeys (v : PyVal) : Except String (List String) :=
  match v with
  | PyVal.dict e => Except.ok (e.map (fun p => p.1))
  | _ => Except.error "AttributeError: object has no attribute keys"

/-- `strip_html_tags` applied to an arbitrary value: the `if not text`
guard returns `""` for every falsy value, a truthy string is stripped, and
any other truthy value raises inside `re.sub`. -/
def pyStripHtml (v : PyVal) : Except String String :=
  if pyFalsy v then Except.ok ""
  else
    match v with
    | PyVal.str s => Except.ok (strip_html_tags s)
    | _ => Except.error "TypeError: expected string or bytes-like object"

mutual

/-- Python `repr(x)` (string escaping inside nested values is simplified;
no claim depends on the rendering of nested containers). -/
def pyRepr : PyVal → String
  | PyVal.str s => "\x27" ++ s ++ "\x27"
  | PyVal.int n => toString n
  | PyVal.bool b => if b then "True" else "False"
  | PyVal.none => "None"
  | PyVal.list items => "[" ++ pyJoinSep ", " (pyReprList items) ++ "]"
  | PyVal.dict entries => "\x7b" ++ pyJoinSep ", " (pyReprEntries entries) ++ "\x7d"

def pyReprList : List PyVal → List String
  | [] => []
  | v :: rest => pyRepr v :: pyReprList rest

def pyReprEntries : List (String × PyVal) → List String
  | [] => []
  | (k, v) :: rest => ("\x27" ++ k ++ "\x27: " ++ pyRepr v) :: pyReprEntries rest

end

/-- Python `str(x)` as used by f-string interpolation. -/
def pyStr (v : PyVal) : String :=
  match v with
  | PyVal.str s => s
  | _ => pyRepr v

/-- Python `s[:n]` for a literal nonnegative `n`. -/
def pyTakeStr (s : String) (n : Nat) : String := String.mk (s.data.take n)

/-- Python `s[:m]` for an arbitrary integer `m`: a negative stop counts
from the end. -/
def pySliceTo (s : String) (m : Int) : String :=
  String.mk (s.data.take (if m < 0 then ((s.data.length : Int) + m).toNat else m.toNat))

/-- `os.path.basename` (POSIX): the part after the last `/`. -/
def pyBasename (p : String) : String :=
  String.mk ((p.data.reverse.takeWhile (fun c => !(c == '/'))).reverse)

/-- The truncation marker appended by the summariser (line 266). -/
def truncationMarker : String := "...[truncated]"

/-- `detect_document_type(content, filepath)` (lines 120-140): path
substring signals first, then structural keys; the structural test applies
Python `in` to `content` and so can raise on non-container content. -/
def detect_document_type (content : PyVal) (filepath : String) : Except String String :=
  let fl := pyLower filepath
  if strIn "api-reference" fl || strIn "api reference" fl || strIn "apireference" fl then
    Except.ok "api_reference"
  else if strIn "guides" fl || strIn "guide" fl then Except.ok "guide"
  else if strIn "solution" fl then Except.ok "solution"
  else if strIn "api-overview" fl || strIn "product-overview" fl ||
      strIn "productoverview" fl then
    Except.ok "product_overview"
  else do
    let hasApi <- pyContains content "APIReference"
    if hasApi then pure "api_reference"
    else do
      let hasGuide <- pyContains content "gatewayGuides"
      if hasGuide then pure "guide" else pure "product_overview"

/-
`prepare_document_summary` (lines 188-268), decomposed into one definition
per block of the source, all in `Except String` so that a `TypeError` /
`AttributeError` / `KeyError` raised on an unexpected shape propagates
exactly as the Python exception would.
-/

/-- Lines 200-201: the `API Name` header line. -/
def apiHeaderPart (api_ref : PyVal) : Except String (List String) := do
  let h <- pyContains api_ref "header"
  if h then do
    let v <- pyGetItem api_ref "header"
    pure ["API Name: " ++ pyStr v]
  else pure []

/-- Lines 203-208: introduction excerpt and endpoint listing. -/
def apiIntroPart (api_ref : PyVal) : Except String (List String) := do
  let h <- pyContains api_ref "introSection"
  if h then do
    let intro <- pyGetItem api_ref "introSection"
    let p1 <- (do
      let hb <- pyContains intro "introductionBodyText"
      if hb then do
        let v <- pyGetItem intro "introductionBodyText"
        let t <- pyStripHtml v
        pure ["Introduction: " ++ pyTakeStr t 500]
      else pure [])
    let p2 <- (do
      let hc <- pyContains intro "codeSnippetsIntroduction"
      if hc then do
        let ci <- pyGetItem intro "codeSnippetsIntroduction"
        let hcode <- pyContains ci "code"
        if hcode then do
          let cv <- pyGetItem ci "code"
          let t <- pyStripHtml cv
          pure ["Endpoints: " ++ t]
        else pure []
      else pure [])
    pure (p1 ++ p2)
  else pure []

/-- Lines 212-215: one pass over `basicsSubsections`, keeping subsections
whose header contains `"Scope"`. -/
def scopesLoop : List PyVal → Except String (List String)
  | [] => pure []
  | sub :: rest => do
    let header <- pyGet sub "basicsSubsectionHeader" (PyVal.str "")
    let hasScope <- pyContains header "Scope"
    let here <-
      (if hasScope then do
        let bv <- pyGet sub "basicsSubsectionBodyText" (PyVal.str "")
        let t <- pyStripHtml bv
        pure ["Scopes: " ++ t]
      else pure [])
    let more <- scopesLoop rest
    pure (here ++ more)

/-- Lines 211-215: the scopes block. -/
def apiScopesPart (api_ref : PyVal) : Except String (List String) := do
  let h1 <- pyContains api_ref "basicsSection"
  if h1 then do
    let bs <- pyGetItem api_ref "basicsSection"
    let h2 <- pyContains bs "basicsSubsections"
    if h2 then do
      let subsv <- pyGetItem bs "basicsSubsections"
      let subs <- pyIter subsv
      scopesLoop subs
    else pure []
  else pure []

/-- Lines 235-237: gather `parameter` values from the rows of one table. -/
def rowsLoop : List PyVal → Except String (List PyVal)
  | [] => pure []
  | row :: rest => do
    let h <- pyContains row "parameter"
    let here <-
      (if h then do
        let v <- pyGetItem row "parameter"
        pure [v]
      else pure [])
    let more <- rowsLoop rest
    pure (here ++ more)

/-- Lines 233-237: gather field names over `useCaseRequestFields`. -/
def requestFieldsLoop : List PyVal → Except String (List PyVal)
  | [] => pure []
  | rf :: rest => do
    let h1 <- pyContains rf "basicsSubsectionTable"
    let here <-
      (if h1 then do
        let tbl <- pyGetItem rf "basicsSubsectionTable"
        let h2 <- pyContains tbl "row"
        if h2 then do
          let rowsv <- pyGetItem tbl "row"
          let rows <- pyIter rowsv
          rowsLoop rows
        else pure []
      else pure [])
    let more <- requestFieldsLoop rest
    pure (here ++ more)

/-- `', '.join(...)` requires every element to be a string (line 239). -/
def pyStrList : List PyVal → Except String (List String)
  | [] => pure []
  | PyVal.str s :: rest => do
    let more <- pyStrList rest
    pure (s :: more)
  | _ :: _ => Except.error "TypeError: sequence item: expected str instance"

/-- Lines 231-239: the `Fields:` line of one use case. -/
def fieldsPart (uc : PyVal) : Except String (List String) := do
  let h <- pyContains uc "useCaseRequestFields"
  if h then do
    let rfv <- pyGetItem uc "useCaseRequestFields"
    let rfs <- pyIter rfv
    let fields <- requestFieldsLoop rfs
    if fields.isEmpty then pure []
    else do
      let strs <- pyStrList (fields.take 15)
      pure ["  Fields: " ++ pyJoinSep ", " strs]
  else pure []

/-- Lines 220-239: one pass over `useCaseSections.items()`; non-dict use
cases are skipped by the `isinstance` guard. -/
def useCasesLoop : List (String × PyVal) → Except String (List String)
  | [] => pure []
  | (_, uc) :: rest => do
    let here <-
      (match uc with
      | PyVal.dict _ => do
        let uh <- pyGet uc "useCaseHeader" (PyVal.str "")
        let um <- pyGet uc "useCaseMethod" (PyVal.str "")
        let ue <- pyGet uc "useCaseEndpoint" (PyVal.str "")
        let ub <- pyGet uc "useCaseBodyText" (PyVal.str "")
        let ubs <- pyStripHtml ub
        let l2 := if pyTakeStr ubs 200 == "" then []
          else ["  " ++ pyTakeStr ubs 200]
        let lf <- fieldsPart uc
        pure (("- " ++ pyStr um ++ " " ++ pyStr uh ++ ": " ++ pyStr ue) :: (l2 ++ lf))
      | _ => pure [])
    let more <- useCasesLoop rest
    pure (here ++ more)

/-- Lines 218-239: the use-case block, headed by `"\nUse Cases:"`. -/
def apiUseCasesPart (api_ref : PyVal) : Except String (List String) := do
  let h <- pyContains api_ref "useCaseSections"
  if h then do
    let ucv <- pyGetItem api_ref "useCaseSections"
    let items <- pyItems ucv
    let lines <- useCasesLoop items
    pure ("\nUse Cases:" :: lines)
  else pure []

/-- Lines 196-239: everything appended in the `api_reference` branch. -/
def apiParts (api_ref : PyVal) : Except String (List String) := do
  let p1 <- apiHeaderPart api_ref
  let p2 <- apiIntroPart api_ref
  let p3 <- apiScopesPart api_ref
  let p4 <- apiUseCasesPart api_ref
  pure (p1 ++ p2 ++ p3 ++ p4)

/-- Lines 244-247: the guide header and intro excerpt. -/
def guideHeaderPart (guide : PyVal) : Except String (List String) := do
  let h <- pyContains guide "headerSection"
  if h then do
    let hs <- pyGetItem guide "headerSection"
    let hv <- pyGet hs "header" (PyVal.str "")
    let h2 <- pyContains hs "introText"
    if h2 then do
      let iv <- pyGetItem hs "introText"
      let t <- pyStripHtml iv
      pure ["Guide: " ++ pyStr hv, "Intro: " ++ pyTakeStr t 500]
    else pure ["Guide: " ++ pyStr hv]
  else pure []

/-- `section["contentBody"][:3]` (line 256): slicing a list or a string
works, anything else raises. -/
def pySlice3 (v : PyVal) : Except String (List PyVal) :=
  match v with
  | PyVal.list l => Except.ok (l.take 3)
  | PyVal.str s => Except.ok ((s.data.take 3).map (fun c => PyVal.str (String.mk [c])))
  | _ => Except.error "TypeError: unhashable type slice"

/-- Lines 256-261: the first three items of one content section; the
`isinstance(item, dict)` guard skips other items. -/
def itemsLoop : List PyVal → Except String (List String)
  | [] => pure []
  | item :: rest => do
    let here <-
      (match item with
      | PyVal.dict _ => do
        let a <- (do
          let h <- pyContains item "subSectionHeader"
          if h then do
            let v <- pyGetItem item "subSectionHeader"
            pure ["- " ++ pyStr v]
          else pure [])
        let b <- (do
          let h <- pyContains item "bodyText"
          if h then do
            let v <- pyGetItem item "bodyText"
            let t <- pyStripHtml v
            pure ["  " ++ pyTakeStr t 200]
          else pure [])
        pure (a ++ b)
      | _ => pure [])
    let more <- itemsLoop rest
    pure (here ++ more)

/-- Lines 250-261: the loop over `sorted(guide.keys())`, entering every key
that starts with `contentSection`. -/
def sectionLoop (guide : PyVal) : List String → Except String (List String)
  | [] => pure []
  | key :: rest => do
    let here <-
      (if strStartsWith key "contentSection" then do
        let s <- pyGetItem guide key
        let a <- (do
          let h <- pyContains s "sectionHeader"
          if h then do
            let v <- pyGetItem s "sectionHeader"
            pure ["\nSection: " ++ pyStr v]
          else pure [])
        let b <- (do
          let h <- pyContains s "contentBody"
          if h then do
            let cb <- pyGetItem s "contentBody"
            let items <- pySlice3 cb
            itemsLoop items
          else pure [])
        pure (a ++ b)
      else pure [])
    let more <- sectionLoop guide rest
    pure (here ++ more)

/-- Lines 241-261: everything appended in the `guide` branch. -/
def guideParts (guide : PyVal) : Except String (List String) := do
  let p1 <- guideHeaderPart guide
  let keys <- pyKeys guide
  let p2 <- sectionLoop guide (sSort strLe keys)
  pure (p1 ++ p2)

/-- The `elif` arm (line 241): the guide branch runs only when the type is
`guide` and `gatewayGuides` is a key of `content`. -/
def elifGuideBranch (doc_type : String) (content : PyVal) : Except String (List String) :=
  if doc_type == "guide" then do
    let hg <- pyContains content "gatewayGuides"
    if hg then do
      let g <- pyGetItem content "gatewayGuides"
      guideParts g
    else pure []
  else pure []

/-- Lines 196-261: the category-specific body of the summary. -/
def branchParts (doc_type : String) (content : PyVal) : Except String (List String) :=
  if doc_type == "api_reference" then do
    let ha <- pyContains content "APIReference"
    if ha then do
      let a <- pyGetItem content "APIReference"
      apiParts a
    else elifGuideBranch doc_type content
  else elifGuideBranch doc_type content

/-- Lines 190-264: the full summary before truncation — header lines
`Document:`/`Type:`/blank, then the category-specific parts, joined by
newlines. -/
def assembleSummary (filepath : String) (content : PyVal) : Except String String := do
  let doc_type <- detect_document_type content filepath
  let parts <- branchParts doc_type content
  pure (pyJoinSep "\n"
    (["Document: " ++ pyBasename filepath, "Type: " ++ doc_type, ""] ++ parts))

/-- `prepare_document_summary(filepath, content, max_chars)` (lines
188-268): assemble, then hard-truncate to `max_chars` characters and append
the truncation marker whenever the assembled text is longer. -/
def prepare_document_summary (filepath : String) (content : PyVal) (max_chars : Int) :
    Except String String := do
  let full <- assembleSummary filepath content
  if max_chars < (full.length : Int) then
    pure (pySliceTo full max_chars ++ truncationMarker)
  else pure full


/-
A sufficient decidable shape condition under which
`prepare_document_summary` cannot raise: every field it may access, when
present, has the type the code expects. Missing keys are always fine (the
"missing fields are silently omitted" half of the claim); the condition
constrains only values that are present.
-/

/-- A value `strip_html_tags` accepts: falsy, or a string. -/
def stripOk (v : PyVal) : Bool := pyFalsy v || (match v with
  | PyVal.str _ => true
  | _ => false)

/-- A value usable as the container of Python `in`. -/
def containsOk (v : PyVal) : Bool :=
  match v with
  | PyVal.str _ => true
  | PyVal.list _ => true
  | PyVal.dict _ => true
  | _ => false

/-- Shape of one row of a request-field table. -/
def wsRow (row : PyVal) : Bool :=
  match row with
  | PyVal.dict re =>
    match dictFind re "parameter" with
    | some (PyVal.str _) => true
    | some _ => false
    | Option.none => true
  | _ => false

/-- Shape of a `basicsSubsectionTable` value. -/
def wsTable (t : PyVal) : Bool :=
  match t with
  | PyVal.dict te =>
    match dictFind te "row" with
    | some (PyVal.list rows) => rows.all wsRow
    | some _ => false
    | Option.none => true
  | _ => false

/-- Shape of one entry of `useCaseRequestFields`. -/
def wsRequestField (rf : PyVal) : Bool :=
  match rf with
  | PyVal.dict re =>
    match dictFind re "basicsSubsectionTable" with
    | some t => wsTable t
    | Option.none => true
  | _ => false

/-- Shape of one use-case value (non-dicts are skipped by the code). -/
def wsUseCase (uc : PyVal) : Bool :=
  match uc with
  | PyVal.dict ue =>
    stripOk ((dictFind ue "useCaseBodyText").getD (PyVal.str "")) &&
    (match dictFind ue "useCaseRequestFields" with
     | some (PyVal.list rfs) => rfs.all wsRequestField
     | some _ => false
     | Option.none => true)
  | _ => true

/-- Shape of one `basicsSubsections` element. -/
def wsSubsection (sub : PyVal) : Bool :=
  match sub with
  | PyVal.dict se =>
    containsOk ((dictFind se "basicsSubsectionHeader").getD (PyVal.str "")) &&
    stripOk ((dictFind se "basicsSubsectionBodyText").getD (PyVal.str ""))
  | _ => false

/-- Shape of an `introSection` value. -/
def wsIntro (i : PyVal) : Bool :=
  match i with
  | PyVal.dict ie =>
    (match dictFind ie "introductionBodyText" with
     | some v => stripOk v
     | Option.none => true) &&
    (match dictFind ie "codeSnippetsIntroduction" with
     | some (PyVal.dict ce) =>
       (match dictFind ce "code" with
        | some v => stripOk v
        | Option.none => true)
     | some _ => false
     | Option.none => true)
  | _ => false

/-- Shape of an `APIReference` value. -/
def wsApi (a : PyVal) : Bool :=
  match a with
  | PyVal.dict ae =>
    (match dictFind ae "introSection" with
     | some i => wsIntro i
     | Option.none => true) &&
    (match dictFind ae "basicsSection" with
     | some (PyVal.dict be) =>
       (match dictFind be "basicsSubsections" with
        | some (PyVal.list subs) => subs.all wsSubsection
        | some _ => false
        | Option.none => true)
     | some _ => false
     | Option.none => true) &&
    (match dictFind ae "useCaseSections" with
     | some (PyVal.dict ue) => ue.all (fun p => wsUseCase p.2)
     | some _ => false
     | Option.none => true)
  | _ => false

/-- Shape of one `contentBody` item (non-dicts are skipped by the code). -/
def wsItem (it : PyVal) : Bool :=
  match it with
  | PyVal.dict ie =>
    match dictFind ie "bodyText" with
    | some v => stripOk v
    | Option.none => true
  | _ => true

/-- Shape of one `contentSection*` value. -/
def wsSection (s : PyVal) : Bool :=
  match s with
  | PyVal.dict se =>
    match dictFind se "contentBody" with
    | some (PyVal.list items) => items.all wsItem
    | some (PyVal.str _) => true
    | some _ => false
    | Option.none => true
  | _ => false

/-- Shape of a `gatewayGuides` value. -/
def wsGuide (g : PyVal) : Bool :=
  match g with
  | PyVal.dict ge =>
    (match dictFind ge "headerSection" with
     | some (PyVal.dict he) =>
       (match dictFind he "introText" with
        | some v => stripOk v
        | Option.none => true)
     | some _ => false
     | Option.none => true) &&
    ge.all (fun p => if strStartsWith p.1 "contentSection" then wsSection p.2 else true)
  | _ => false

/-- A document on which `prepare_document_summary` is total: a mapping
whose `APIReference` and `gatewayGuides` values (when present) have the
shapes above. -/
def wellShapedDoc (content : PyVal) : Bool :=
  match content with
  | PyVal.dict ce =>
    (match dictFind ce "APIReference" with
     | some a => wsApi a
     | Option.none => true) &&
    (match dictFind ce "gatewayGuides" with
     | some g => wsGuide g
     | Option.none => true)
  | _ => false


/-- Is a value a Python `str`? (`', '.join` accepts exactly these.) -/
def isStrPy : PyVal → Bool
  | PyVal.str _ => true
  | _ => false

/-! ### Lemmas about the reconciler -/

theorem mem_sInsert {le : α → α → Bool} {x a : α} :
    ∀ {l : List α}, a ∈ sInsert le x l → a = x ∨ a ∈ l := by
  intro l
  induction l with
  | nil =>
    intro h
    rw [sInsert] at h
    exact Or.inl (List.mem_singleton.1 h)
  | cons y l ih =>
    intro h
    rw [sInsert] at h
    by_cases hc : le y x = true
    · rw [if_pos hc] at h
      rcases List.mem_cons.1 h with h | h
      · exact Or.inr (h ▸ List.mem_cons_self _ _)
      · rcases ih h with h | h
        · exact Or.inl h
        · exact Or.inr (List.mem_cons_of_mem _ h)
    · rw [if_neg hc] at h
      rcases List.mem_cons.1 h with h | h
      · exact Or.inl h
      · exact Or.inr h

theorem mem_sSort_aux {le : α → α → Bool} {a : α} :
    ∀ (l acc : List α), a ∈ l.foldl (fun acc x => sInsert le x acc) acc →
      a ∈ acc ∨ a ∈ l := by
  intro l
  induction l with
  | nil => intro acc h; exact Or.inl h
  | cons y l ih =>
    intro acc h
    rw [List.foldl_cons] at h
    rcases ih _ h with h | h
    · rcases mem_sInsert h with h | h
      · exact Or.inr (h ▸ List.mem_cons_self _ _)
      · exact Or.inl h
    · exact Or.inr (List.mem_cons_of_mem _ h)

theorem mem_sSort {le : α → α → Bool} {a : α} {l : List α}
    (h : a ∈ sSort le l) : a ∈ l := by
  rcases mem_sSort_aux l [] h with h | h
  · simp at h
  · exact h

theorem sInsert_pairwise {le : α → α → Bool}
    (htot : ∀ a b, le a b = true ∨ le b a = true)
    (htrans : ∀ a b c, le a b = true → le b c = true → le a c = true) (x : α) :
    ∀ {l : List α}, List.Pairwise (fun a b => le a b = true) l →
      List.Pairwise (fun a b => le a b = true) (sInsert le x l) := by
  intro l
  induction l with
  | nil =>
    intro _
    rw [sInsert]
    exact List.pairwise_singleton _ _
  | cons y l ih =>
    intro hp
    rw [sInsert]
    rcases List.pairwise_cons.1 hp with ⟨hy, hl⟩
    by_cases hc : le y x = true
    · rw [if_pos hc]
      refine List.pairwise_cons.2 ⟨?_, ih hl⟩
      intro z hz
      rcases mem_sInsert hz with rfl | hz
      · exact hc
      · exact hy z hz
    · rw [if_neg hc]
      have hxy : le x y = true := (htot x y).resolve_right (fun h => hc h)
      refine List.pairwise_cons.2 ⟨?_, hp⟩
      intro z hz
      rcases List.mem_cons.1 hz with rfl | hz
      · exact hxy
      · exact htrans x y z hxy (hy z hz)

theorem sSort_pairwise {le : α → α → Bool}
    (htot : ∀ a b, le a b = true ∨ le b a = true)
    (htrans : ∀ a b c, le a b = true → le b c = true → le a c = true) :
    ∀ (l acc : List α), List.Pairwise (fun a b => le a b = true) acc →
      List.Pairwise (fun a b => le a b = true)
        (l.foldl (fun acc x => sInsert le x acc) acc) := by
  intro l
  induction l with
  | nil => intro acc h; exact h
  | cons y l ih =>
    intro acc h
    rw [List.foldl_cons]
    exact ih _ (sInsert_pairwise htot htrans y h)

theorem entryLe_iff (a b : String × Nat) :
    entryLe a b = true ↔ b.2 < a.2 ∨ (a.2 = b.2 ∧ ¬ b.1 < a.1) := by
  simp [entryLe, Bool.or_eq_true, Bool.and_eq_true, decide_eq_true_eq,
    Bool.not_eq_true', decide_eq_false_iff_not]

theorem entryLe_total (a b : String × Nat) :
    entryLe a b = true ∨ entryLe b a = true := by
  rw [entryLe_iff, entryLe_iff]
  rcases Nat.lt_trichotomy a.2 b.2 with h | h | h
  · exact Or.inr (Or.inl h)
  · by_cases hs : b.1 < a.1
    · exact Or.inr (Or.inr ⟨h.symm, lt_asymm hs⟩)
    · exact Or.inl (Or.inr ⟨h, hs⟩)
  · exact Or.inl (Or.inl h)

theorem entryLe_trans (a b c : String × Nat)
    (h₁ : entryLe a b = true) (h₂ : entryLe b c = true) : entryLe a c = true := by
  rw [entryLe_iff] at h₁ h₂ ⊢
  rcases h₁ with h₁ | ⟨h₁e, h₁s⟩
  · rcases h₂ with h₂ | ⟨h₂e, _⟩
    · exact Or.inl (h₂.trans h₁)
    · exact Or.inl (h₂e ▸ h₁)
  · rcases h₂ with h₂ | ⟨h₂e, h₂s⟩
    · exact Or.inl (h₁e ▸ h₂)
    · refine Or.inr ⟨h₁e.trans h₂e, ?_⟩
      exact not_lt.2 ((not_lt.1 h₁s).trans (not_lt.1 h₂s))

theorem sortedPhrases_pairwise (all_phrases : List String) :
    List.Pairwise (fun a b => entryLe a b = true) (sortedPhrases all_phrases) :=
  sSort_pairwise entryLe_total entryLe_trans _ [] List.Pairwise.nil

/-- Every key of the `normalized` accumulator set by `assocSet` is either the
assigned key or a key already present. -/
theorem assocSet_key {l : List (String × Nat)} {k : String} {v : Nat}
    {kv : String × Nat} (h : kv ∈ assocSet l k v) :
    kv.1 = k ∨ ∃ q ∈ l, kv.1 = q.1 := by
  unfold assocSet at h
  split at h
  · rcases List.mem_map.1 h with ⟨q, hq, hkv⟩
    refine Or.inr ⟨q, hq, ?_⟩
    by_cases hc : (q.1 == k) = true
    · rw [if_pos hc] at hkv; exact hkv ▸ rfl
    · rw [if_neg hc] at hkv; exact hkv ▸ rfl
  · rcases List.mem_append.1 h with h | h
    · exact Or.inr ⟨kv, h, rfl⟩
    · rcases List.mem_singleton.1 h with rfl
      exact Or.inl rfl

theorem assocPop_subset {l : List (String × Nat)} {k : String} {kv : String × Nat}
    (h : kv ∈ assocPop l k) : kv ∈ l :=
  List.mem_of_mem_filter h

theorem assocContains_exists {l : List (String × Nat)} {k : String}
    (h : assocContains l k = true) : ∃ q ∈ l, q.1 = k := by
  rcases List.any_eq_true.1 h with ⟨q, hq, hk⟩
  exact ⟨q, hq, beq_iff_eq.1 hk⟩

theorem counterAdd_key {acc : List (String × Nat)} {p : String}
    {kv : String × Nat} (h : kv ∈ counterAdd acc p) :
    kv.1 = p ∨ ∃ q ∈ acc, kv.1 = q.1 := by
  unfold counterAdd at h
  split at h
  · rcases List.mem_map.1 h with ⟨q, hq, hkv⟩
    refine Or.inr ⟨q, hq, ?_⟩
    by_cases hc : (q.1 == p) = true
    · rw [if_pos hc] at hkv; exact hkv ▸ rfl
    · rw [if_neg hc] at hkv; exact hkv ▸ rfl
  · rcases List.mem_append.1 h with h | h
    · exact Or.inr ⟨kv, h, rfl⟩
    · rcases List.mem_singleton.1 h with rfl
      exact Or.inl rfl

/-- Every key of `Counter(all_phrases)` is one of the raw input phrases. -/
theorem counterOf_keys {all_phrases : List String} :
    ∀ kv ∈ counterOf all_phrases, kv.1 ∈ all_phrases := by
  have aux : ∀ (l : List String) (acc : List (String × Nat)),
      (∀ kv ∈ acc, kv.1 ∈ all_phrases) → (∀ p ∈ l, p ∈ all_phrases) →
      ∀ kv ∈ List.foldl counterAdd acc l, kv.1 ∈ all_phrases := by
    intro l
    induction l with
    | nil => intro acc hacc _ kv hkv; exact hacc kv hkv
    | cons y l ih =>
      intro acc hacc hl kv hkv
      rw [List.foldl_cons] at hkv
      refine ih _ ?_ (fun p hp => hl p (List.mem_cons_of_mem _ hp)) kv hkv
      intro q hq
      rcases counterAdd_key hq with h | ⟨r, hr, hqr⟩
      · exact h ▸ hl y (List.mem_cons_self _ _)
      · exact hqr ▸ hacc r hr
  intro kv hkv
  exact aux _ [] (by simp) (fun p hp => hp) kv hkv

/-- Every key of the `normalized` accumulator is the lowercased-trimmed form
of some raw input phrase. -/
theorem buildNormalized_keys {all_phrases : List String} :
    ∀ kv ∈ buildNormalized (counterOf all_phrases),
      ∃ p ∈ all_phrases, pyNorm p = kv.1 := by
  have step : ∀ (acc : List (String × Nat)) (pc : String × Nat),
      (∀ kv ∈ acc, ∃ p ∈ all_phrases, pyNorm p = kv.1) → pc.1 ∈ all_phrases →
      ∀ kv ∈ mergeStep acc pc, ∃ p ∈ all_phrases, pyNorm p = kv.1 := by
    intro acc pc hacc hpc kv hkv
    simp only [mergeStep] at hkv
    split at hkv
    · rcases assocSet_key hkv with h | ⟨q, hq, hkq⟩
      · exact ⟨pc.1, hpc, h ▸ rfl⟩
      · exact hkq ▸ hacc q (assocPop_subset hq)
    · split at hkv
      · rename_i hguard
        rcases assocSet_key hkv with h | ⟨q, hq, hkq⟩
        · rcases assocContains_exists hguard with ⟨q, hq, hqk⟩
          exact (h ▸ hqk ▸ hacc q hq)
        · exact hkq ▸ hacc q hq
      · rcases assocSet_key hkv with h | ⟨q, hq, hkq⟩
        · exact ⟨pc.1, hpc, h ▸ rfl⟩
        · exact hkq ▸ hacc q hq
  have aux : ∀ (l acc : List (String × Nat)),
      (∀ kv ∈ acc, ∃ p ∈ all_phrases, pyNorm p = kv.1) →
      (∀ q ∈ l, q.1 ∈ all_phrases) →
      ∀ kv ∈ List.foldl mergeStep acc l, ∃ p ∈ all_phrases, pyNorm p = kv.1 := by
    intro l
    induction l with
    | nil => intro acc hacc _ kv hkv; exact hacc kv hkv
    | cons y l ih =>
      intro acc hacc hl kv hkv
      rw [List.foldl_cons] at hkv
      exact ih _ (step acc y hacc (hl y (List.mem_cons_self _ _)))
        (fun q hq => hl q (List.mem_cons_of_mem _ hq)) kv hkv
  intro kv hkv
  exact aux _ [] (by simp) (fun q hq => counterOf_keys q hq) kv hkv

/-- Every key of the sorted entry list has a raw input phrase whose
normalised form is that key. -/
theorem sortedPhrases_keys {all_phrases : List String} :
    ∀ kv ∈ sortedPhrases all_phrases, ∃ p ∈ all_phrases, pyNorm p = kv.1 :=
  fun kv hkv => buildNormalized_keys kv (mem_sSort hkv)

/-- When some input phrase normalises to `k`, the representative-recovery
scan succeeds and returns an input phrase normalising to `k`. -/
theorem recoverRep_spec {all_phrases : List String} {k : String}
    (h : ∃ p ∈ all_phrases, pyNorm p = k) :
    recoverRep all_phrases k ∈ all_phrases ∧ pyNorm (recoverRep all_phrases k) = k := by
  obtain ⟨p, hp, hn⟩ := h
  have hsome : (all_phrases.find? (fun o => pyNorm o == k)).isSome := by
    rw [List.find?_isSome]
    exact ⟨p, hp, beq_iff_eq.2 hn⟩
  obtain ⟨o, ho⟩ := Option.isSome_iff_exists.1 hsome
  have h1 : recoverRep all_phrases k = o := by
    unfold recoverRep
    rw [ho]
  rw [h1]
  have hpred := List.find?_some ho
  simp only [beq_iff_eq] at hpred
  exact ⟨List.mem_of_find?_eq_some ho, hpred⟩

/-- The output loop preserves: emitted entries come from the input and the
emitted normalised forms are distinct. -/
theorem recoverLoop_invariant (all_phrases : List String) (t : Int) :
    ∀ (entries : List (String × Nat)) (seen result : List String),
      (∀ kv ∈ entries, ∃ p ∈ all_phrases, pyNorm p = kv.1) →
      (result.map pyNorm).Nodup →
      (∀ x ∈ result.map pyNorm, x ∈ seen) →
      (∀ e ∈ result, e ∈ all_phrases) →
      ((recoverLoop all_phrases t entries seen result).map pyNorm).Nodup ∧
      (∀ e ∈ recoverLoop all_phrases t entries seen result, e ∈ all_phrases) := by
  intro entries
  induction entries with
  | nil => intro seen result _ hnd _ hmem; exact ⟨hnd, hmem⟩
  | cons kv rest ih =>
    intro seen result hw hnd hseen hmem
    obtain ⟨k, c⟩ := kv
    rw [recoverLoop]
    by_cases hs : seen.contains k = true
    · rw [if_pos hs]
      split
      · exact ⟨hnd, hmem⟩
      · exact ih seen result (fun q hq => hw q (List.mem_cons_of_mem _ hq)) hnd hseen hmem
    · rw [if_neg hs]
      have hk : ∃ p ∈ all_phrases, pyNorm p = k :=
        hw (k, c) (List.mem_cons_self _ _)
      obtain ⟨hrep_mem, hrep_norm⟩ := recoverRep_spec hk
      have hknotin : k ∉ result.map pyNorm := by
        intro hkin
        have : k ∈ seen := hseen k hkin
        exact hs (List.elem_eq_true_of_mem this)
      have hnd' : ((result ++ [recoverRep all_phrases k]).map pyNorm).Nodup := by
        rw [List.map_append]
        simp only [List.map_cons, List.map_nil]
        rw [hrep_norm]
        simp [List.nodup_append, hnd, hknotin]
      have hseen' : ∀ x ∈ (result ++ [recoverRep all_phrases k]).map pyNorm, x ∈ k :: seen := by
        intro x hx
        rw [List.map_append] at hx
        rcases List.mem_append.1 hx with hx | hx
        · exact List.mem_cons_of_mem _ (hseen x hx)
        · simp only [List.map_cons, List.map_nil, List.mem_singleton] at hx
          rw [hx, hrep_norm]
          exact List.mem_cons_self _ _
      have hmem' : ∀ e ∈ result ++ [recoverRep all_phrases k], e ∈ all_phrases := by
        intro e he
        rcases List.mem_append.1 he with he | he
        · exact hmem e he
        · rcases List.mem_singleton.1 he with rfl
          exact hrep_mem
      split
      · exact ⟨hnd', hmem'⟩
      · exact ih _ _ (fun q hq => hw q (List.mem_cons_of_mem _ hq)) hnd' hseen' hmem'

/-- The output loop never grows the result past the target once the target is
positive: the break test runs after each append. -/
theorem recoverLoop_length (all_phrases : List String) (t : Int) :
    ∀ (entries : List (String × Nat)) (seen result : List String),
      (result.length : Int) < t →
      ((recoverLoop all_phrases t entries seen result).length : Int) ≤ t := by
  intro entries
  induction entries with
  | nil => intro seen result h; exact le_of_lt h
  | cons kv rest ih =>
    intro seen result h
    obtain ⟨k, c⟩ := kv
    rw [recoverLoop]
    by_cases hs : seen.contains k = true
    · rw [if_pos hs]
      split
      · exact le_of_lt h
      · exact ih seen result h
    · rw [if_neg hs]
      have hlen : ((result ++ [recoverRep all_phrases k]).length : Int) =
          (result.length : Int) + 1 := by
        rw [List.length_append]
        simp
      split
      · rw [hlen]; omega
      · rename_i hbreak
        exact ih _ _ (by omega)

/-! ### Claim theorems for the reconciler -/

/-- C1: on input `["Invoice", "invoice", "Invoices", "Refund"]` with target
count 10, `deduplicate_keyphrases` returns exactly `["Invoices", "Refund"]`:
the three invoice variants merge under the plural normalised key `"invoices"`
with cumulative count 3 and rank first, `"refund"` has count 1 and ranks
second, and the representative emitted for the merged key is the first raw
input whose lowercased-trimmed form is `"invoices"`, namely `"Invoices"`. -/
theorem C1_invoice_example :
    deduplicate_keyphrases ["Invoice", "invoice", "Invoices", "Refund"] 10 =
      ["Invoices", "Refund"] ∧
    sortedPhrases ["Invoice", "invoice", "Invoices", "Refund"] =
      [("invoices", 3), ("refund", 1)] :=
  ⟨by decide, by decide⟩

/-- C2 counterexample: the claimed bound `len(output) ≤ N for all N ≥ 0`
fails at `N = 0`: on input `["a"]` with target 0 the code appends one entry
before the first break test (`if len(result) >= target_count` runs after the
append), so the output has length 1 > 0. -/
theorem C2_target_zero_cex :
    deduplicate_keyphrases ["a"] 0 = ["a"] ∧
    (deduplicate_keyphrases ["a"] 0).length = 1 :=
  ⟨by decide, by decide⟩

/-- C2 (amended): for every input list and every target `N ≥ 1`, the output
of `deduplicate_keyphrases` has length at most `N`. -/
theorem C2_size_bound (all_phrases : List String) (N : Int) (h : 1 ≤ N) :
    ((deduplicate_keyphrases all_phrases N).length : Int) ≤ N := by
  unfold deduplicate_keyphrases
  exact recoverLoop_length all_phrases N _ [] [] (by simpa using h)

/-- Witness for C2: the amended bound applied at a concrete input. -/
theorem C2_size_bound_witness :
    (1 : Int) ≤ 2 ∧
    ((deduplicate_keyphrases ["pay", "Pay", "refund"] 2).length : Int) ≤ 2 :=
  ⟨by decide, C2_size_bound ["pay", "Pay", "refund"] 2 (by decide)⟩

/-- C3 counterexample: the singular/plural part of the claimed invariant
fails. On input `["a", "ass", "as"]` the key `"as"` is created by merging
`"a"` into it after `"ass"` already exists, so the output `["as", "ass"]`
contains two entries whose lowercased-trimmed forms differ by exactly a
trailing `"s"`. -/
theorem C3_plural_pair_cex :
    deduplicate_keyphrases ["a", "ass", "as"] 10 = ["as", "ass"] ∧
    pyNorm "ass" = pyNorm "as" ++ "s" :=
  ⟨by decide, by decide⟩

/-- C3 (amended): for every input list and every target count, the output of
`deduplicate_keyphrases` contains no two entries whose lowercased-trimmed
forms are equal. (The further claim that no output entry's form is another's
plus a trailing "s" is refuted by the counterexample.) -/
theorem C3_distinct_normal_forms (all_phrases : List String) (t : Int) :
    ((deduplicate_keyphrases all_phrases t).map pyNorm).Nodup := by
  unfold deduplicate_keyphrases
  exact (recoverLoop_invariant all_phrases t _ [] []
    (fun kv hkv => sortedPhrases_keys kv hkv) (by simp) (by simp) (by simp)).1

/-- C9: `deduplicate_keyphrases` is deterministic — in this embedding
(insertion-ordered dictionaries, exactly CPython ≥ 3.7 semantics) it is a
pure function, so equal arguments give equal outputs — and the entry list it
ranks is sorted by descending merged count with ties broken by ascending
normalised key. -/
theorem C9_deterministic_ranking (all_phrases : List String) (t : Int) :
    deduplicate_keyphrases all_phrases t = deduplicate_keyphrases all_phrases t ∧
    List.Pairwise (fun a b : String × Nat => b.2 < a.2 ∨ (a.2 = b.2 ∧ a.1 ≤ b.1))
      (sortedPhrases all_phrases) := by
  refine ⟨rfl, List.Pairwise.imp ?_ (sortedPhrases_pairwise all_phrases)⟩
  intro a b h
  rcases (entryLe_iff a b).1 h with h | ⟨he, hs⟩
  · exact Or.inl h
  · exact Or.inr ⟨he, not_lt.1 hs⟩

/-- C10: every key of the `normalized` accumulator is the lowercased-trimmed
form of some input phrase; hence the representative scan always finds an
original-casing input string (the defensive fallback that would emit the bare
key is never taken), and every output entry occurs verbatim in the input. -/
theorem C10_output_from_input (all_phrases : List String) (t : Int) :
    (∀ kv ∈ buildNormalized (counterOf all_phrases),
      ∃ p ∈ all_phrases, pyNorm p = kv.1) ∧
    (∀ kv ∈ sortedPhrases all_phrases,
      (all_phrases.find? (fun o => pyNorm o == kv.1)).isSome = true) ∧
    (∀ e ∈ deduplicate_keyphrases all_phrases t, e ∈ all_phrases) := by
  refine ⟨fun kv hkv => buildNormalized_keys kv hkv, ?_, ?_⟩
  · intro kv hkv
    obtain ⟨p, hp, hn⟩ := sortedPhrases_keys kv hkv
    rw [List.find?_isSome]
    exact ⟨p, hp, beq_iff_eq.2 hn⟩
  · intro e he
    exact (recoverLoop_invariant all_phrases t _ [] []
      (fun kv hkv => sortedPhrases_keys kv hkv) (by simp) (by simp) (by simp)).2 e
      (by simpa [deduplicate_keyphrases] using he)

/-- Witness for C10: membership hypotheses discharged at a concrete input. -/
theorem C10_output_from_input_witness :
    "Ab" ∈ ["Ab"] :=
  (C10_output_from_input ["Ab"] 3).2.2 "Ab" (by decide)

/-! ### Lemmas and claim theorem for the batch loop -/

theorem batchAux_append (pf : String → Except String (String × List String)) :
    ∀ (l₁ l₂ : List String) (acc : List String × List (String × FileRecord)),
      batchAux pf (l₁ ++ l₂) acc = batchAux pf l₂ (batchAux pf l₁ acc) := by
  intro l₁
  induction l₁ with
  | nil => intro l₂ acc; rfl
  | cons f rest ih =>
    intro l₂ acc
    obtain ⟨ks, rs⟩ := acc
    cases hpf : pf f with
    | ok p =>
      obtain ⟨t, kps⟩ := p
      simp only [List.cons_append, batchAux, hpf]
      exact ih l₂ _
    | error e =>
      simp only [List.cons_append, batchAux, hpf]
      exact ih l₂ _

theorem batchAux_factor (pf : String → Except String (String × List String)) :
    ∀ (files : List String) (ks : List String) (rs : List (String × FileRecord)),
      batchAux pf files (ks, rs) =
        (ks ++ (processBatch pf files).1, rs ++ (processBatch pf files).2) := by
  intro files
  induction files with
  | nil => intro ks rs; simp [batchAux, processBatch]
  | cons f rest ih =>
    intro ks rs
    cases hpf : pf f with
    | ok p =>
      obtain ⟨t, kps⟩ := p
      simp only [processBatch, batchAux, hpf]
      rw [ih, ih]
      simp
    | error e =>
      simp only [processBatch, batchAux, hpf]
      rw [ih, ih]
      simp

/-- C7: a failure raised while processing one document is caught at the
single-document boundary and recorded as an error entry keyed by that
document's path; the collected keyphrases and the records of every other
document are exactly those of the batch with the failing document absent
(which itself splits position-by-position). -/
theorem C7_failure_isolation (pf : String → Except String (String × List String))
    (xs ys : List String) (bad e : String) (h : pf bad = .error e) :
    (processBatch pf (xs ++ bad :: ys)).1 = (processBatch pf (xs ++ ys)).1 ∧
    (processBatch pf (xs ++ bad :: ys)).2 =
      (processBatch pf xs).2 ++ (bad, FileRecord.err e) :: (processBatch pf ys).2 ∧
    (processBatch pf (xs ++ ys)).1 = (processBatch pf xs).1 ++ (processBatch pf ys).1 ∧
    (processBatch pf (xs ++ ys)).2 = (processBatch pf xs).2 ++ (processBatch pf ys).2 := by
  have hx : processBatch pf xs = ((processBatch pf xs).1, (processBatch pf xs).2) := rfl
  have hbad : processBatch pf (xs ++ bad :: ys) =
      ((processBatch pf xs).1 ++ (processBatch pf ys).1,
       (processBatch pf xs).2 ++ (bad, FileRecord.err e) :: (processBatch pf ys).2) := by
    show batchAux pf (xs ++ bad :: ys) ([], []) = _
    rw [batchAux_append, ← processBatch]
    rw [hx, batchAux, h]
    dsimp only
    rw [batchAux_factor]
    simp
  have hwo : processBatch pf (xs ++ ys) =
      ((processBatch pf xs).1 ++ (processBatch pf ys).1,
       (processBatch pf xs).2 ++ (processBatch pf ys).2) := by
    show batchAux pf (xs ++ ys) ([], []) = _
    rw [batchAux_append, ← processBatch]
    rw [hx, batchAux_factor]
  rw [hbad, hwo]
  exact ⟨rfl, rfl, rfl, rfl⟩

/-- Witness for C7: in a batch of 3 documents where document 2 fails to
parse, documents 1 and 3 still yield complete results and the error is
recorded under document 2's path. -/
theorem C7_failure_isolation_witness :
    (processBatch pfThreeDocs (["doc1"] ++ "doc2" :: ["doc3"])).2 =
      (processBatch pfThreeDocs ["doc1"]).2 ++
        ("doc2", FileRecord.err "Expecting value: line 1 column 1 (char 0)") ::
        (processBatch pfThreeDocs ["doc3"]).2 :=
  (C7_failure_isolation pfThreeDocs ["doc1"] ["doc3"] "doc2"
    "Expecting value: line 1 column 1 (char 0)" rfl).2.1

/-! ### Structure of `splitAtGt` and unfolding equations for the scans -/

theorem dropWhile_head_not {p : Char → Bool} :
    ∀ {l : List Char} {x : Char} {rest' : List Char},
      l.dropWhile p = x :: rest' → p x = false := by
  intro l
  induction l with
  | nil => intro x r h; simp at h
  | cons c cs ih =>
    intro x r h
    rw [List.dropWhile_cons] at h
    split at h
    · exact ih h
    · rename_i hc
      cases h
      simpa using hc

theorem splitAtGt_some_struct {l pre post : List Char}
    (h : splitAtGt l = some (pre, post)) :
    l = pre ++ '>' :: post ∧ '>' ∉ pre := by
  unfold splitAtGt at h
  cases hd : l.dropWhile (fun c => !(c == '>')) with
  | nil => rw [hd] at h; exact absurd h (by simp)
  | cons x post' =>
    rw [hd] at h
    simp only [Option.some.injEq, Prod.mk.injEq] at h
    obtain ⟨h1, h2⟩ := h
    have hx : x = '>' := by simpa using dropWhile_head_not hd
    subst hx
    subst h2
    subst h1
    constructor
    · conv_lhs => rw [← List.takeWhile_append_dropWhile (p := fun c => !(c == '>')) (l := l)]
      rw [hd]
    · intro hmem
      have := List.mem_takeWhile_imp hmem
      simp at this

theorem dropWhile_append_gt {pre : List Char} (hpre : '>' ∉ pre) (post : List Char) :
    (pre ++ '>' :: post).dropWhile (fun c => !(c == '>')) = '>' :: post := by
  induction pre with
  | nil => simp [List.dropWhile_cons]
  | cons c cs ih =>
    have hc : c ≠ '>' := fun hc => hpre (hc ▸ List.mem_cons_self _ _)
    rw [List.cons_append, List.dropWhile_cons, if_pos (by simpa using hc)]
    exact ih (fun hm => hpre (List.mem_cons_of_mem _ hm))

theorem takeWhile_append_gt {pre : List Char} (hpre : '>' ∉ pre) (post : List Char) :
    (pre ++ '>' :: post).takeWhile (fun c => !(c == '>')) = pre := by
  induction pre with
  | nil => simp [List.takeWhile_cons]
  | cons c cs ih =>
    have hc : c ≠ '>' := fun hc => hpre (hc ▸ List.mem_cons_self _ _)
    rw [List.cons_append, List.takeWhile_cons, if_pos (by simpa using hc)]
    rw [ih (fun hm => hpre (List.mem_cons_of_mem _ hm))]

theorem splitAtGt_of_struct {pre post : List Char} (hpre : '>' ∉ pre) :
    splitAtGt (pre ++ '>' :: post) = some (pre, post) := by
  unfold splitAtGt
  rw [dropWhile_append_gt hpre, takeWhile_append_gt hpre]

theorem splitAtGt_none_iff {l : List Char} : splitAtGt l = none ↔ '>' ∉ l := by
  unfold splitAtGt
  rcases hd : l.dropWhile (fun c => !(c == '>')) with _ | ⟨x, post'⟩
  · constructor
    · intro _ hmem
      have := List.dropWhile_eq_nil_iff.1 hd '>' hmem
      simp at this
    · intro _; rfl
  · constructor
    · intro h; exact Option.noConfusion h
    · intro h
      exfalso
      have hx : x = '>' := by simpa using dropWhile_head_not hd
      have hsuf := List.dropWhile_suffix (l := l) (p := fun c => !(c == '>'))
      rw [hd] at hsuf
      exact h (hx ▸ hsuf.subset (List.mem_cons_self _ _))

theorem splitAtGt_post_length {l pre post : List Char}
    (h : splitAtGt l = some (pre, post)) : post.length < l.length := by
  obtain ⟨h1, -⟩ := splitAtGt_some_struct h
  rw [h1]
  simp only [List.length_append, List.length_cons]
  omega

theorem subTagsF_step :
    ∀ (fuel : Nat) (l : List Char), l.length ≤ fuel →
      subTagsF (fuel + 1) l = subTagsF fuel l := by
  intro fuel
  induction fuel with
  | zero =>
    intro l h
    have : l = [] := List.length_eq_zero.1 (Nat.le_zero.1 h)
    subst this
    rfl
  | succ fuel ih =>
    intro l h
    cases l with
    | nil => rfl
    | cons c rest =>
      have hr : rest.length ≤ fuel := by
        simp only [List.length_cons] at h
        omega
      rw [subTagsF, subTagsF]
      cases hsp : splitAtGt rest with
      | none => rw [ih rest hr]
      | some pp =>
        obtain ⟨pre, post⟩ := pp
        have hp : post.length ≤ fuel :=
          le_of_lt (lt_of_lt_of_le (splitAtGt_post_length hsp) hr)
        dsimp only
        rw [ih rest hr, ih post hp]

theorem subTagsF_ge :
    ∀ (k fuel : Nat) (l : List Char), l.length ≤ fuel →
      subTagsF (fuel + k) l = subTagsF fuel l := by
  intro k
  induction k with
  | zero => intro fuel l _; rfl
  | succ k ih =>
    intro fuel l h
    have he : fuel + (k + 1) = (fuel + k) + 1 := by omega
    rw [he, subTagsF_step (fuel + k) l (le_trans h (by omega)), ih fuel l h]

theorem subTagsF_eq_subTags (fuel : Nat) (l : List Char) (h : l.length ≤ fuel) :
    subTagsF fuel l = subTags l := by
  obtain ⟨k, hk⟩ := Nat.exists_eq_add_of_le h
  rw [subTags, hk, subTagsF_ge k l.length l (le_refl _)]

theorem subTags_nil : subTags [] = [] := rfl

theorem subTags_cons (c : Char) (rest : List Char) :
    subTags (c :: rest) =
      if c == '<' then
        match splitAtGt rest with
        | some (pre, post) =>
          if pre.isEmpty then c :: subTags rest else ' ' :: subTags post
        | none => c :: subTags rest
      else c :: subTags rest := by
  show subTagsF (rest.length + 1) (c :: rest) = _
  rw [subTagsF]
  cases hsp : splitAtGt rest with
  | none => rfl
  | some pp =>
    obtain ⟨pre, post⟩ := pp
    dsimp only
    rw [subTagsF_eq_subTags rest.length post (le_of_lt (splitAtGt_post_length hsp)),
      subTagsF_eq_subTags rest.length rest (le_refl _)]

theorem collapseWsF_step :
    ∀ (fuel : Nat) (l : List Char), l.length ≤ fuel →
      collapseWsF (fuel + 1) l = collapseWsF fuel l := by
  intro fuel
  induction fuel with
  | zero =>
    intro l h
    have : l = [] := List.length_eq_zero.1 (Nat.le_zero.1 h)
    subst this
    rfl
  | succ fuel ih =>
    intro l h
    cases l with
    | nil => rfl
    | cons c rest =>
      have hr : rest.length ≤ fuel := by
        simp only [List.length_cons] at h
        omega
      have hd : (rest.dropWhile isSpaceB).length ≤ fuel :=
        le_trans (List.dropWhile_suffix isSpaceB).length_le hr
      rw [collapseWsF, collapseWsF, ih rest hr, ih _ hd]

theorem collapseWsF_ge :
    ∀ (k fuel : Nat) (l : List Char), l.length ≤ fuel →
      collapseWsF (fuel + k) l = collapseWsF fuel l := by
  intro k
  induction k with
  | zero => intro fuel l _; rfl
  | succ k ih =>
    intro fuel l h
    have he : fuel + (k + 1) = (fuel + k) + 1 := by omega
    rw [he, collapseWsF_step (fuel + k) l (le_trans h (by omega)), ih fuel l h]

theorem collapseWsF_eq_collapseWs (fuel : Nat) (l : List Char) (h : l.length ≤ fuel) :
    collapseWsF fuel l = collapseWs l := by
  obtain ⟨k, hk⟩ := Nat.exists_eq_add_of_le h
  rw [collapseWs, hk, collapseWsF_ge k l.length l (le_refl _)]

theorem collapseWs_nil : collapseWs [] = [] := rfl

theorem collapseWs_cons (c : Char) (rest : List Char) :
    collapseWs (c :: rest) =
      if isSpaceB c then ' ' :: collapseWs (rest.dropWhile isSpaceB)
      else c :: collapseWs rest := by
  show collapseWsF (rest.length + 1) (c :: rest) = _
  rw [collapseWsF]
  rw [collapseWsF_eq_collapseWs rest.length (rest.dropWhile isSpaceB)
      (List.dropWhile_suffix isSpaceB).length_le,
    collapseWsF_eq_collapseWs rest.length rest (le_refl _)]

/-- Sanity checks that the embedding of `re.sub(r"<[^>]+>", " ", ...)`
scans exactly as Python does: a `<` with no closing `>` is literal, the
match is nonempty (`<>` does not match), and scanning resumes after the
substituted gap. -/
theorem strip_html_tags_examples :
    subTags "ab<c>d".data = "ab d".data ∧
    subTags "<<a>>".data = " >".data ∧
    subTags "a<>b".data = "a<>b".data ∧
    strip_html_tags "<p>Hello <b>world</b></p>" = "Hello world" ∧
    strip_html_tags "  a   b  " = "a b" :=
  ⟨by decide, by decide, by decide, by decide, by decide⟩

theorem splitAtGt_cons_gt (l : List Char) : splitAtGt ('>' :: l) = some ([], l) := by
  unfold splitAtGt
  simp [List.dropWhile_cons, List.takeWhile_cons]

theorem mem_subTags :
    ∀ {l : List Char} {x : Char}, x ∈ subTags l → x ∈ l ∨ x = ' ' := by
  have aux : ∀ (n : Nat) (l : List Char), l.length ≤ n →
      ∀ x ∈ subTags l, x ∈ l ∨ x = ' ' := by
    intro n
    induction n with
    | zero =>
      intro l h x hx
      have : l = [] := List.length_eq_zero.1 (Nat.le_zero.1 h)
      subst this
      rw [subTags_nil] at hx
      simp at hx
    | succ n ih =>
      intro l h x hx
      cases l with
      | nil => rw [subTags_nil] at hx; simp at hx
      | cons c rest =>
        have hr : rest.length ≤ n := by
          simp only [List.length_cons] at h
          omega
        rw [subTags_cons] at hx
        by_cases hc : (c == '<') = true
        · rw [if_pos hc] at hx
          cases hsp : splitAtGt rest with
          | none =>
            rw [hsp] at hx
            rcases List.mem_cons.1 hx with rfl | hx
            · exact Or.inl (List.mem_cons_self _ _)
            · rcases ih rest hr x hx with h' | h'
              · exact Or.inl (List.mem_cons_of_mem _ h')
              · exact Or.inr h'
          | some pp =>
            obtain ⟨pre, post⟩ := pp
            rw [hsp] at hx
            dsimp only at hx
            by_cases hemp : pre.isEmpty = true
            · rw [if_pos hemp] at hx
              rcases List.mem_cons.1 hx with rfl | hx
              · exact Or.inl (List.mem_cons_self _ _)
              · rcases ih rest hr x hx with h' | h'
                · exact Or.inl (List.mem_cons_of_mem _ h')
                · exact Or.inr h'
            · rw [if_neg hemp] at hx
              rcases List.mem_cons.1 hx with rfl | hx
              · exact Or.inr rfl
              · have hp : post.length ≤ n :=
                  le_of_lt (lt_of_lt_of_le (splitAtGt_post_length hsp) hr)
                rcases ih post hp x hx with h' | h'
                · obtain ⟨hrest, -⟩ := splitAtGt_some_struct hsp
                  refine Or.inl (List.mem_cons_of_mem _ ?_)
                  rw [hrest]
                  exact List.mem_append.2 (Or.inr (List.mem_cons_of_mem _ h'))
                · exact Or.inr h'
        · rw [if_neg hc] at hx
          rcases List.mem_cons.1 hx with rfl | hx
          · exact Or.inl (List.mem_cons_self _ _)
          · rcases ih rest hr x hx with h' | h'
            · exact Or.inl (List.mem_cons_of_mem _ h')
            · exact Or.inr h'
  intro l x hx
  exact aux l.length l (le_refl _) x hx

theorem gtFree_subTags {l : List Char} (h : '>' ∉ l) : '>' ∉ subTags l := by
  intro hx
  rcases mem_subTags hx with h' | h'
  · exact h h'
  · exact absurd h' (by decide)

theorem subTags_fix_cons_iff (c : Char) (rest : List Char) :
    subTags (c :: rest) = c :: rest ↔
      ((c = '<' → splitAtGt rest = none ∨ ∃ post, splitAtGt rest = some ([], post)) ∧
       subTags rest = rest) := by
  rw [subTags_cons]
  by_cases hc : (c == '<') = true
  · have hc' : c = '<' := beq_iff_eq.1 hc
    rw [if_pos hc]
    cases hsp : splitAtGt rest with
    | none =>
      constructor
      · intro h
        exact ⟨fun _ => Or.inl rfl, (List.cons.injEq _ _ _ _ ▸ h).2⟩
      · rintro ⟨-, h⟩
        rw [h]
    | some pp =>
      obtain ⟨pre, post⟩ := pp
      dsimp only
      by_cases hemp : pre.isEmpty = true
      · have hpre : pre = [] := by
          cases pre with
          | nil => rfl
          | cons a b => simp [List.isEmpty] at hemp
        subst hpre
        rw [if_pos hemp]
        constructor
        · intro h
          exact ⟨fun _ => Or.inr ⟨post, rfl⟩, (List.cons.injEq _ _ _ _ ▸ h).2⟩
        · rintro ⟨-, h⟩
          rw [h]
      · rw [if_neg hemp]
        constructor
        · intro h
          exfalso
          have : (' ' : Char) = c := (List.cons.injEq _ _ _ _ ▸ h).1
          rw [hc'] at this
          exact absurd this (by decide)
        · rintro ⟨hhead, -⟩
          exfalso
          rcases hhead hc' with h' | ⟨post', h'⟩
          · exact Option.noConfusion h'
          · simp only [Option.some.injEq, Prod.mk.injEq] at h'
            obtain ⟨hpre, -⟩ := h'
            rw [hpre] at hemp
            simp [List.isEmpty] at hemp
  · have hc' : c ≠ '<' := fun h => hc (beq_iff_eq.2 h)
    rw [if_neg hc]
    constructor
    · intro h
      exact ⟨fun h' => absurd h' hc', (List.cons.injEq _ _ _ _ ▸ h).2⟩
    · rintro ⟨-, h⟩
      rw [h]

theorem subTags_subTags (l : List Char) : subTags (subTags l) = subTags l := by
  have aux : ∀ (n : Nat) (l : List Char), l.length ≤ n →
      subTags (subTags l) = subTags l := by
    intro n
    induction n with
    | zero =>
      intro l h
      have : l = [] := List.length_eq_zero.1 (Nat.le_zero.1 h)
      subst this
      rfl
    | succ n ih =>
      intro l h
      cases l with
      | nil => rfl
      | cons c rest =>
        have hr : rest.length ≤ n := by
          simp only [List.length_cons] at h
          omega
        rw [subTags_cons c rest]
        by_cases hc : (c == '<') = true
        · rw [if_pos hc]
          cases hsp : splitAtGt rest with
          | none =>
            dsimp only
            have hgt2 : '>' ∉ subTags rest :=
              gtFree_subTags (splitAtGt_none_iff.1 hsp)
            rw [subTags_cons c (subTags rest), if_pos hc,
              splitAtGt_none_iff.2 hgt2]
            rw [ih rest hr]
          | some pp =>
            obtain ⟨pre, post⟩ := pp
            dsimp only
            have hp : post.length ≤ n :=
              le_of_lt (lt_of_lt_of_le (splitAtGt_post_length hsp) hr)
            by_cases hemp : pre.isEmpty = true
            · rw [if_pos hemp]
              have hpre : pre = [] := by
                cases pre with
                | nil => rfl
                | cons a b => simp [List.isEmpty] at hemp
              subst hpre
              obtain ⟨hrest, -⟩ := splitAtGt_some_struct hsp
              rw [List.nil_append] at hrest
              rw [hrest, subTags_cons '>' post, if_neg (by decide)]
              rw [subTags_cons c ('>' :: subTags post), if_pos hc,
                splitAtGt_cons_gt (subTags post)]
              dsimp only
              rw [if_pos (by rfl), subTags_cons '>' (subTags post),
                if_neg (by decide), ih post hp]
            · rw [if_neg hemp]
              rw [subTags_cons ' ' (subTags post), if_neg (by decide), ih post hp]
        · rw [if_neg hc]
          rw [subTags_cons c (subTags rest), if_neg hc, ih rest hr]
  exact aux l.length l (le_refl _)

theorem subTags_fix_dropWhile :
    ∀ {l : List Char}, subTags l = l →
      subTags (l.dropWhile isSpaceB) = l.dropWhile isSpaceB := by
  intro l
  induction l with
  | nil => intro _; rfl
  | cons c rest ih =>
    intro h
    rw [List.dropWhile_cons]
    by_cases hs : isSpaceB c = true
    · rw [if_pos hs]
      exact ih ((subTags_fix_cons_iff c rest).1 h).2
    · rw [if_neg hs]
      exact h

theorem rstrip_decomp (l : List Char) :
    ∃ w, l = rstripL l ++ w ∧ ∀ c ∈ w, isSpaceB c = true := by
  refine ⟨(l.reverse.takeWhile isSpaceB).reverse, ?_, ?_⟩
  · conv_lhs => rw [← l.reverse_reverse,
      ← List.takeWhile_append_dropWhile (p := isSpaceB) (l := l.reverse),
      List.reverse_append]
    rfl
  · intro c hc
    rw [List.mem_reverse] at hc
    exact List.mem_takeWhile_imp hc

theorem subTags_fix_append_ws :
    ∀ (m w : List Char), (∀ c ∈ w, isSpaceB c = true) →
      subTags (m ++ w) = m ++ w → subTags m = m := by
  intro m
  induction m with
  | nil => intro w _ _; rfl
  | cons c m' ih =>
    intro w hw h
    rw [List.cons_append] at h
    obtain ⟨hhead, htail⟩ := (subTags_fix_cons_iff c (m' ++ w)).1 h
    refine (subTags_fix_cons_iff c m').2 ⟨?_, ih w hw htail⟩
    intro hc
    rcases hhead hc with h' | ⟨post, h'⟩
    · left
      rw [splitAtGt_none_iff] at h' ⊢
      intro hm
      exact h' (List.mem_append.2 (Or.inl hm))
    · obtain ⟨hstruct, -⟩ := splitAtGt_some_struct h'
      rw [List.nil_append] at hstruct
      cases m' with
      | nil => left; rfl
      | cons d m'' =>
        right
        rw [List.cons_append] at hstruct
        injection hstruct with hd hrest
        rw [hd]
        exact ⟨m'', splitAtGt_cons_gt m''⟩

theorem subTags_fix_rstrip {l : List Char} (h : subTags l = l) :
    subTags (rstripL l) = rstripL l := by
  obtain ⟨w, hdec, hw⟩ := rstrip_decomp l
  refine subTags_fix_append_ws (rstripL l) w hw ?_
  rw [← hdec]
  exact h

theorem subTags_fix_pyStrip {l : List Char} (h : subTags l = l) :
    subTags (pyStripL l) = pyStripL l :=
  subTags_fix_rstrip (subTags_fix_dropWhile h)

theorem mem_collapseWs :
    ∀ {l : List Char} {x : Char}, x ∈ collapseWs l → x ∈ l ∨ x = ' ' := by
  have aux : ∀ (n : Nat) (l : List Char), l.length ≤ n →
      ∀ x ∈ collapseWs l, x ∈ l ∨ x = ' ' := by
    intro n
    induction n with
    | zero =>
      intro l h x hx
      have : l = [] := List.length_eq_zero.1 (Nat.le_zero.1 h)
      subst this
      rw [collapseWs_nil] at hx
      simp at hx
    | succ n ih =>
      intro l h x hx
      cases l with
      | nil => rw [collapseWs_nil] at hx; simp at hx
      | cons c rest =>
        have hr : rest.length ≤ n := by
          simp only [List.length_cons] at h
          omega
        rw [collapseWs_cons] at hx
        by_cases hs : isSpaceB c = true
        · rw [if_pos hs] at hx
          rcases List.mem_cons.1 hx with rfl | hx
          · exact Or.inr rfl
          · have hd : (rest.dropWhile isSpaceB).length ≤ n :=
              le_trans (List.dropWhile_suffix isSpaceB).length_le hr
            rcases ih _ hd x hx with h' | h'
            · exact Or.inl
                (List.mem_cons_of_mem _ ((List.dropWhile_suffix isSpaceB).subset h'))
            · exact Or.inr h'
        · rw [if_neg hs] at hx
          rcases List.mem_cons.1 hx with rfl | hx
          · exact Or.inl (List.mem_cons_self _ _)
          · rcases ih rest hr x hx with h' | h'
            · exact Or.inl (List.mem_cons_of_mem _ h')
            · exact Or.inr h'
  intro l x hx
  exact aux l.length l (le_refl _) x hx

theorem length_collapseWs_le : ∀ (l : List Char), (collapseWs l).length ≤ l.length := by
  have aux : ∀ (n : Nat) (l : List Char), l.length ≤ n →
      (collapseWs l).length ≤ l.length := by
    intro n
    induction n with
    | zero =>
      intro l h
      have : l = [] := List.length_eq_zero.1 (Nat.le_zero.1 h)
      subst this
      simp [collapseWs_nil]
    | succ n ih =>
      intro l h
      cases l with
      | nil => simp [collapseWs_nil]
      | cons c rest =>
        have hr : rest.length ≤ n := by
          simp only [List.length_cons] at h
          omega
        rw [collapseWs_cons]
        by_cases hs : isSpaceB c = true
        · rw [if_pos hs]
          have hd : (rest.dropWhile isSpaceB).length ≤ n :=
            le_trans (List.dropWhile_suffix isSpaceB).length_le hr
          have h1 := ih _ hd
          have h2 := (List.dropWhile_suffix (l := rest) isSpaceB).length_le
          simp only [List.length_cons]
          omega
        · rw [if_neg hs]
          have h1 := ih rest hr
          simp only [List.length_cons]
          omega
  intro l
  exact aux l.length l (le_refl _)

theorem head_not_space_of_dropWhile_fix {d : Char} {t : List Char}
    (h : (d :: t).dropWhile isSpaceB = d :: t) : isSpaceB d = false := by
  by_contra hne
  have hd : isSpaceB d = true := by
    revert hne
    cases isSpaceB d <;> simp
  rw [List.dropWhile_cons, if_pos hd] at h
  have hlen := congrArg List.length h
  have hle := (List.dropWhile_suffix (l := t) isSpaceB).length_le
  simp only [List.length_cons] at hlen
  omega

theorem dropWhile_fix_of_append {m w : List Char}
    (h : (m ++ w).dropWhile isSpaceB = m ++ w) : m.dropWhile isSpaceB = m := by
  cases m with
  | nil => rfl
  | cons d m'' =>
    rw [List.cons_append] at h
    have hd := head_not_space_of_dropWhile_fix h
    rw [List.dropWhile_cons, if_neg (by simp [hd])]

theorem dropWhile_dropWhile (p : Char → Bool) (l : List Char) :
    (l.dropWhile p).dropWhile p = l.dropWhile p := by
  cases hd : l.dropWhile p with
  | nil => rfl
  | cons x rest' =>
    rw [List.dropWhile_cons, if_neg (by simp [dropWhile_head_not hd])]

theorem subTags_fix_collapseWs :
    ∀ {l : List Char}, subTags l = l → subTags (collapseWs l) = collapseWs l := by
  have aux : ∀ (n : Nat) (l : List Char), l.length ≤ n → subTags l = l →
      subTags (collapseWs l) = collapseWs l := by
    intro n
    induction n with
    | zero =>
      intro l h _
      have : l = [] := List.length_eq_zero.1 (Nat.le_zero.1 h)
      subst this
      rfl
    | succ n ih =>
      intro l h hfix
      cases l with
      | nil => rfl
      | cons c rest =>
        have hr : rest.length ≤ n := by
          simp only [List.length_cons] at h
          omega
        obtain ⟨hhead, htail⟩ := (subTags_fix_cons_iff c rest).1 hfix
        rw [collapseWs_cons]
        by_cases hs : isSpaceB c = true
        · rw [if_pos hs]
          refine (subTags_fix_cons_iff ' ' _).2 ⟨?_, ?_⟩
          · intro h'
            exact absurd h' (by decide)
          · exact ih (rest.dropWhile isSpaceB)
              (le_trans (List.dropWhile_suffix isSpaceB).length_le hr)
              (subTags_fix_dropWhile htail)
        · rw [if_neg hs]
          refine (subTags_fix_cons_iff c _).2 ⟨?_, ih rest hr htail⟩
          intro hc
          rcases hhead hc with h' | ⟨post, h'⟩
          · left
            rw [splitAtGt_none_iff] at h' ⊢
            intro hm
            rcases mem_collapseWs hm with hm' | hm'
            · exact h' hm'
            · exact absurd hm' (by decide)
          · right
            obtain ⟨hrest, -⟩ := splitAtGt_some_struct h'
            rw [List.nil_append] at hrest
            rw [hrest, collapseWs_cons, if_neg (by decide)]
            exact ⟨collapseWs post, splitAtGt_cons_gt _⟩
  intro l hfix
  exact aux l.length l (le_refl _) hfix

theorem collapseWs_collapseWs (l : List Char) :
    collapseWs (collapseWs l) = collapseWs l := by
  have aux : ∀ (n : Nat) (l : List Char), l.length ≤ n →
      collapseWs (collapseWs l) = collapseWs l := by
    intro n
    induction n with
    | zero =>
      intro l h
      have : l = [] := List.length_eq_zero.1 (Nat.le_zero.1 h)
      subst this
      rfl
    | succ n ih =>
      intro l h
      cases l with
      | nil => rfl
      | cons c rest =>
        have hr : rest.length ≤ n := by
          simp only [List.length_cons] at h
          omega
        rw [collapseWs_cons]
        by_cases hs : isSpaceB c = true
        · rw [if_pos hs]
          have hd : (rest.dropWhile isSpaceB).length ≤ n :=
            le_trans (List.dropWhile_suffix isSpaceB).length_le hr
          rw [collapseWs_cons ' ' _, if_pos (by decide)]
          have hfixd : (rest.dropWhile isSpaceB).dropWhile isSpaceB =
              rest.dropWhile isSpaceB := dropWhile_dropWhile isSpaceB rest
          have hdw : (collapseWs (rest.dropWhile isSpaceB)).dropWhile isSpaceB =
              collapseWs (rest.dropWhile isSpaceB) := by
            cases hvv : rest.dropWhile isSpaceB with
            | nil => rw [collapseWs_nil]; rfl
            | cons e d' =>
              rw [hvv] at hfixd
              have he : isSpaceB e = false := head_not_space_of_dropWhile_fix hfixd
              rw [collapseWs_cons, if_neg (by simp [he]), List.dropWhile_cons,
                if_neg (by simp [he])]
          rw [hdw, ih _ hd]
        · rw [if_neg hs]
          rw [collapseWs_cons c _, if_neg hs, ih rest hr]
  exact aux l.length l (le_refl _)

theorem collapseWs_fix_cons_iff (c : Char) (rest : List Char) :
    collapseWs (c :: rest) = c :: rest ↔
      ((isSpaceB c = true → c = ' ' ∧ rest.dropWhile isSpaceB = rest) ∧
       collapseWs rest = rest) := by
  rw [collapseWs_cons]
  by_cases hs : isSpaceB c = true
  · rw [if_pos hs]
    constructor
    · intro h
      injection h with h1 h2
      have hdw : rest.dropWhile isSpaceB = rest := by
        have hlen1 := length_collapseWs_le (rest.dropWhile isSpaceB)
        have hlen2 := (List.dropWhile_suffix (l := rest) isSpaceB).length_le
        have hlen3 := congrArg List.length h2
        exact (List.dropWhile_suffix isSpaceB).eq_of_length (by omega)
      rw [hdw] at h2
      exact ⟨fun _ => ⟨h1.symm, hdw⟩, h2⟩
    · rintro ⟨hcnd, hrest⟩
      obtain ⟨hc, hdw⟩ := hcnd hs
      rw [hdw, hrest, hc]
  · rw [if_neg hs]
    constructor
    · intro h
      injection h with h1 h2
      exact ⟨fun hh => absurd hh hs, h2⟩
    · rintro ⟨-, hrest⟩
      rw [hrest]

theorem collapseWs_fix_dropWhile :
    ∀ {l : List Char}, collapseWs l = l →
      collapseWs (l.dropWhile isSpaceB) = l.dropWhile isSpaceB := by
  intro l
  induction l with
  | nil => intro _; rfl
  | cons c rest ih =>
    intro h
    rw [List.dropWhile_cons]
    by_cases hs : isSpaceB c = true
    · rw [if_pos hs]
      exact ih ((collapseWs_fix_cons_iff c rest).1 h).2
    · rw [if_neg hs]
      exact h

theorem collapseWs_fix_append_ws :
    ∀ (m w : List Char), (∀ c ∈ w, isSpaceB c = true) →
      collapseWs (m ++ w) = m ++ w → collapseWs m = m := by
  intro m
  induction m with
  | nil => intro w _ _; rfl
  | cons c m' ih =>
    intro w hw h
    rw [List.cons_append] at h
    obtain ⟨hcnd, htail⟩ := (collapseWs_fix_cons_iff c (m' ++ w)).1 h
    refine (collapseWs_fix_cons_iff c m').2 ⟨?_, ih w hw htail⟩
    intro hs
    obtain ⟨hc, hdw⟩ := hcnd hs
    exact ⟨hc, dropWhile_fix_of_append hdw⟩

theorem collapseWs_fix_pyStrip {l : List Char} (h : collapseWs l = l) :
    collapseWs (pyStripL l) = pyStripL l := by
  have h1 : collapseWs (lstripL l) = lstripL l := collapseWs_fix_dropWhile h
  obtain ⟨w, hdec, hw⟩ := rstrip_decomp (lstripL l)
  refine collapseWs_fix_append_ws (rstripL (lstripL l)) w hw ?_
  rw [← hdec]
  exact h1

theorem pyStripL_idem (l : List Char) : pyStripL (pyStripL l) = pyStripL l := by
  have hu : (lstripL l).dropWhile isSpaceB = lstripL l := dropWhile_dropWhile isSpaceB l
  have hpre : ∃ t, lstripL l = pyStripL l ++ t := by
    obtain ⟨w, hdec, -⟩ := rstrip_decomp (lstripL l)
    exact ⟨w, hdec⟩
  have hv : (pyStripL l).dropWhile isSpaceB = pyStripL l := by
    cases hvv : pyStripL l with
    | nil => rfl
    | cons d v' =>
      obtain ⟨t, ht⟩ := hpre
      rw [hvv] at ht
      rw [ht, List.cons_append] at hu
      have hd := head_not_space_of_dropWhile_fix hu
      rw [List.dropWhile_cons, if_neg (by simp [hd])]
  show rstripL (lstripL (pyStripL l)) = pyStripL l
  have h2 : lstripL (pyStripL l) = pyStripL l := hv
  rw [h2]
  show rstripL (rstripL (lstripL l)) = rstripL (lstripL l)
  unfold rstripL
  rw [List.reverse_reverse, dropWhile_dropWhile]

/-- C8: `strip_html_tags` is idempotent. After one pass no tag pattern
`<[^>]+>` remains, whitespace is fully collapsed, and both ends are
stripped, so a second pass changes nothing. -/
theorem C8_strip_idempotent (x : String) :
    strip_html_tags (strip_html_tags x) = strip_html_tags x := by
  by_cases hx : (x == "") = true
  · have hx' : x = "" := beq_iff_eq.1 hx
    subst hx'
    rfl
  · have h1 : strip_html_tags x = String.mk (pyStripL (collapseWs (subTags x.data))) := by
      rw [strip_html_tags, if_neg hx]
    rw [h1]
    by_cases hr : (String.mk (pyStripL (collapseWs (subTags x.data))) == "") = true
    · rw [strip_html_tags, if_pos hr]
      exact (beq_iff_eq.1 hr).symm
    · rw [strip_html_tags, if_neg hr]
      have hdata : (String.mk (pyStripL (collapseWs (subTags x.data)))).data =
          pyStripL (collapseWs (subTags x.data)) := rfl
      rw [hdata]
      have f1 : subTags (pyStripL (collapseWs (subTags x.data))) =
          pyStripL (collapseWs (subTags x.data)) :=
        subTags_fix_pyStrip (subTags_fix_collapseWs (subTags_subTags x.data))
      have f2 : collapseWs (pyStripL (collapseWs (subTags x.data))) =
          pyStripL (collapseWs (subTags x.data)) :=
        collapseWs_fix_pyStrip (collapseWs_collapseWs (subTags x.data))
      have f3 : pyStripL (pyStripL (collapseWs (subTags x.data))) =
          pyStripL (collapseWs (subTags x.data)) :=
        pyStripL_idem (collapseWs (subTags x.data))
      rw [f1, f2, f3]

/-! ### The walker flattens to its leaf fragments (C4) -/

theorem joinFilter_nil : joinFilter [] = "" := rfl

theorem str_append_space_ne (x y : String) : x ++ " " ++ y ≠ "" := by
  intro h
  have h1 : (x ++ " " ++ y).length = 0 := by rw [h]; rfl
  rw [String.length_append, String.length_append] at h1
  have h2 : (" " : String).length = 1 := rfl
  omega

theorem pyJoinSep_space_ne_empty (y : String) (more : List String) (hy : y ≠ "") :
    pyJoinSep " " (y :: more) ≠ "" := by
  cases more with
  | nil => simpa [pyJoinSep] using hy
  | cons z ms =>
    show y ++ " " ++ pyJoinSep " " (z :: ms) ≠ ""
    exact str_append_space_ne y (pyJoinSep " " (z :: ms))

theorem joinFilter_singleton (x : String) : joinFilter [x] = x := by
  by_cases hx : x = ""
  · subst hx
    rfl
  · unfold joinFilter
    rw [List.filter_cons, if_pos (by simp [hx])]
    rfl

theorem joinFilter_cons (x : String) (rest : List String) :
    joinFilter (x :: rest) =
      if x = "" then joinFilter rest
      else if joinFilter rest = "" then x else x ++ " " ++ joinFilter rest := by
  by_cases hx : x = ""
  · rw [if_pos hx]
    subst hx
    unfold joinFilter
    rw [List.filter_cons]
    simp
  · rw [if_neg hx]
    unfold joinFilter
    rw [List.filter_cons, if_pos (by simp [hx])]
    cases hf : rest.filter (fun s => !(s == "")) with
    | nil => simp [pyJoinSep]
    | cons y more =>
      have hy : y ≠ "" := by
        have hm : y ∈ rest.filter (fun s => !(s == "")) := by
          rw [hf]
          exact List.mem_cons_self _ _
        simpa using List.of_mem_filter hm
      rw [if_neg (pyJoinSep_space_ne_empty y more hy)]
      rfl

theorem filter_eq_nil_of_joinFilter {a : List String} (ha : joinFilter a = "") :
    a.filter (fun s => !(s == "")) = [] := by
  cases hf : a.filter (fun s => !(s == "")) with
  | nil => rfl
  | cons y more =>
    exfalso
    have hy : y ≠ "" := by
      have hm : y ∈ a.filter (fun s => !(s == "")) := by
        rw [hf]
        exact List.mem_cons_self _ _
      simpa using List.of_mem_filter hm
    apply pyJoinSep_space_ne_empty y more hy
    rw [← hf]
    exact ha

theorem joinFilter_append_empty {a : List String} (ha : joinFilter a = "")
    (b : List String) : joinFilter (a ++ b) = joinFilter b := by
  unfold joinFilter
  rw [List.filter_append, filter_eq_nil_of_joinFilter ha, List.nil_append]

theorem joinFilter_append_of {a : List String} (ha : joinFilter a ≠ "") :
    ∀ (b : List String), joinFilter (a ++ b) =
      if joinFilter b = "" then joinFilter a
      else joinFilter a ++ " " ++ joinFilter b := by
  induction a with
  | nil => exact absurd rfl ha
  | cons x a' ih =>
    intro b
    by_cases hx : x = ""
    · have hxa : joinFilter (x :: a') = joinFilter a' := by
        rw [joinFilter_cons, if_pos hx]
      have ha' : joinFilter a' ≠ "" := by
        rw [← hxa]
        exact ha
      rw [List.cons_append, joinFilter_cons, if_pos hx, ih ha' b, hxa]
    · by_cases ha' : joinFilter a' = ""
      · have hxa : joinFilter (x :: a') = x := by
          rw [joinFilter_cons, if_neg hx, if_pos ha']
        rw [List.cons_append, joinFilter_cons, if_neg hx,
          joinFilter_append_empty ha' b, hxa]
      · have hxa : joinFilter (x :: a') = x ++ " " ++ joinFilter a' := by
          rw [joinFilter_cons, if_neg hx, if_neg ha']
        rw [List.cons_append, joinFilter_cons, if_neg hx, ih ha' b, hxa]
        by_cases hb : joinFilter b = ""
        · simp only [if_pos hb, if_neg ha']
        · simp only [if_neg hb]
          rw [if_neg (str_append_space_ne _ _)]
          simp [String.append_assoc]

theorem joinFilter_append (a b : List String) :
    joinFilter (a ++ b) =
      if joinFilter a = "" then joinFilter b
      else if joinFilter b = "" then joinFilter a
      else joinFilter a ++ " " ++ joinFilter b := by
  by_cases ha : joinFilter a = ""
  · rw [if_pos ha, joinFilter_append_empty ha]
  · rw [if_neg ha, joinFilter_append_of ha]

theorem joinFilter_append_congr {a b a' b' : List String}
    (ha : joinFilter a = joinFilter a') (hb : joinFilter b = joinFilter b') :
    joinFilter (a ++ b) = joinFilter (a' ++ b') := by
  rw [joinFilter_append, joinFilter_append, ha, hb]

theorem restSeg_join (go : PyVal → String) (go' : PyVal → List String)
    (h : ∀ w, go w = joinFilter (go' w)) (k : String) (v : PyVal) :
    joinFilter (restSeg go k v) = joinFilter (fragsRestSeg go' k v) := by
  unfold restSeg fragsRestSeg
  by_cases hk : priorityKeys.contains k = true
  · rw [if_pos hk, if_pos hk]
  · rw [if_neg hk, if_neg hk]
    cases v <;> simp [joinFilter_singleton, h]

theorem etcVal_eq_joinFilter_frags :
    ∀ (n : Nat) (v : PyVal), etcVal n v = joinFilter (fragsVal n v) := by
  intro n
  induction n with
  | zero => intro v; rfl
  | succ n ih =>
    have hPrio : ∀ (ks : List String) (entries : List (String × PyVal)),
        joinFilter (prioPass (etcVal n) ks entries) =
          joinFilter (fragsPrio (fragsVal n) ks entries) := by
      intro ks
      induction ks with
      | nil => intro entries; rfl
      | cons k ks ihk =>
        intro entries
        rw [prioPass, fragsPrio]
        refine joinFilter_append_congr ?_ (ihk entries)
        cases hfind : dictFind entries k with
        | none => rfl
        | some w =>
          cases w with
          | str s => rfl
          | dict e => rw [joinFilter_singleton]; exact ih _
          | list l => rw [joinFilter_singleton]; exact ih _
          | int m => rfl
          | bool b => rfl
          | none => rfl
    have hRest : ∀ (entries : List (String × PyVal)),
        joinFilter (restPass (etcVal n) entries) =
          joinFilter (fragsRest (fragsVal n) entries) := by
      intro entries
      induction entries with
      | nil => rfl
      | cons kv rest ihr =>
        obtain ⟨k, v⟩ := kv
        rw [restPass, fragsRest]
        exact joinFilter_append_congr (restSeg_join _ _ ih k v) ihr
    have hList : ∀ (items : List PyVal),
        joinFilter (listPass (etcVal n) items) =
          joinFilter (fragsList (fragsVal n) items) := by
      intro items
      induction items with
      | nil => rfl
      | cons v rest ihl =>
        show joinFilter ([etcVal n v] ++ listPass (etcVal n) rest) =
          joinFilter (fragsVal n v ++ fragsList (fragsVal n) rest)
        refine joinFilter_append_congr ?_ ihl
        rw [joinFilter_singleton]
        exact ih v
    intro v
    cases v with
    | dict entries =>
      show joinFilter (prioPass (etcVal n) priorityKeys entries ++
          restPass (etcVal n) entries) =
        joinFilter (fragsPrio (fragsVal n) priorityKeys entries ++
          fragsRest (fragsVal n) entries)
      exact joinFilter_append_congr (hPrio priorityKeys entries) (hRest entries)
    | list items =>
      show joinFilter (listPass (etcVal n) items) =
        joinFilter (fragsList (fragsVal n) items)
      exact hList items
    | str s => rfl
    | int m => rfl
    | bool b => rfl
    | none => rfl

/-- C4 counterexample: `extract_text_content` does not collect all
string-valued content. A string value under a non-priority mapping key and a
bare string element of a sequence both contribute nothing, so both trees
below yield `""` although they contain the string `"hello"`. -/
theorem C4_walker_cex :
    extract_text_content (PyVal.dict [("zzz", PyVal.str "hello")]) 10 = "" ∧
    extract_text_content (PyVal.list [PyVal.str "hello"]) 10 = "" :=
  ⟨by decide, by decide⟩

/-- C4 (amended): `extract_text_content(node, max_depth)` space-joins (after
dropping empty fragments) exactly the flat, in-order list of leaf fragments
given by: the `strip_html_tags`-normalised string values at priority keys of
mappings, recursing (with depth decremented) into mapping- or sequence-valued
entries — priority keys first, then remaining keys in insertion order — and
into sequence elements in order. String values under non-priority keys and
bare string elements of sequences are not collected. -/
theorem C4_walker_fragments (data : PyVal) (max_depth : Int) :
    extract_text_content data max_depth = joinFilter (fragsVal max_depth.toNat data) :=
  etcVal_eq_joinFilter_frags max_depth.toNat data

/-! ### Summariser bound (C6) and totality (C5) -/

theorem length_pySliceTo_le (s : String) {m : Int} (hm : 0 ≤ m) :
    ((pySliceTo s m).length : Int) ≤ m := by
  unfold pySliceTo
  rw [if_neg (not_lt.2 hm)]
  show ((s.data.take m.toNat).length : Int) ≤ m
  have h1 : (s.data.take m.toNat).length ≤ m.toNat := by
    simp [List.length_take]
  calc ((s.data.take m.toNat).length : Int) ≤ (m.toNat : Int) := by exact_mod_cast h1
    _ = m := Int.toNat_of_nonneg hm

/-- C6 counterexample: for a negative `max_chars` the Python slice
`full_summary[:max_chars]` counts from the end, so the truncated summary can
be far longer than `max_chars + len(marker)`: with `max_chars = -1` the
header-only summary (35 characters) yields a 48-character result, but
`-1 + 14 = 13`. -/
theorem C6_negative_cex :
    prepare_document_summary "x" (PyVal.dict []) (-1) =
      Except.ok ("Document: x\nType: product_overview" ++ truncationMarker) ∧
    ¬ ((("Document: x\nType: product_overview" ++ truncationMarker).length : Int) ≤
        (-1) + (truncationMarker.length : Int)) :=
  ⟨rfl, by decide⟩

/-- C6 (amended): for every document tree, path and `max_chars ≥ 0`,
whenever `prepare_document_summary` returns a string it has length at most
`max_chars + len("...[truncated]")`, and whenever the assembled text
exceeds `max_chars` the result ends with the truncation marker. -/
theorem C6_summary_bound (filepath : String) (content : PyVal) (max_chars : Int)
    (s : String) (hm : 0 ≤ max_chars)
    (hok : prepare_document_summary filepath content max_chars = Except.ok s) :
    (s.length : Int) ≤ max_chars + (truncationMarker.length : Int) ∧
    (∀ full, assembleSummary filepath content = Except.ok full →
      max_chars < (full.length : Int) → ∃ p, s = p ++ truncationMarker) := by
  unfold prepare_document_summary at hok
  cases hasm : assembleSummary filepath content with
  | error e =>
    rw [hasm] at hok
    exact absurd hok (by simp [Bind.bind, Except.bind])
  | ok full =>
    rw [hasm] at hok
    have hok' : (if max_chars < (full.length : Int) then
        Except.ok (pySliceTo full max_chars ++ truncationMarker)
      else Except.ok full) = Except.ok s := hok
    by_cases hlen : max_chars < (full.length : Int)
    · rw [if_pos hlen] at hok'
      have hs : s = pySliceTo full max_chars ++ truncationMarker := by
        injection hok' with h
        exact h.symm
      constructor
      · rw [hs, String.length_append]
        have h2 := length_pySliceTo_le full hm
        push_cast
        omega
      · intro full' _ _
        exact ⟨pySliceTo full max_chars, hs⟩
    · rw [if_neg hlen] at hok'
      have hs : s = full := by
        injection hok' with h
        exact h.symm
      constructor
      · rw [hs]
        have h3 : (full.length : Int) ≤ max_chars := not_lt.1 hlen
        have h4 : (0 : Int) ≤ (truncationMarker.length : Int) := by positivity
        omega
      · intro full' hfull' hlt
        injection hfull' with h
        subst h
        exact absurd hlt hlen

/-- Witness for C6: the amended bound applied at a concrete input where the
summary is truncated. -/
theorem C6_summary_bound_witness :
    (("Document: ...[truncated]" : String).length : Int) ≤
      10 + (truncationMarker.length : Int) :=
  (C6_summary_bound "x" (PyVal.dict []) 10 "Document: ...[truncated]"
    (by decide) rfl).1

/-- C5 counterexample: `prepare_document_summary` is not total. A guide
document whose `contentSection1` value is the integer `7` reaches
`"sectionHeader" in section`, which raises `TypeError: argument of type
'int' is not iterable`. -/
theorem C5_totality_cex :
    (prepare_document_summary "guides/x"
      (PyVal.dict [("gatewayGuides", PyVal.dict [("contentSection1", PyVal.int 7)])])
      15000).isOk = false := by decide

theorem pyGet_dict (e : List (String × PyVal)) (k : String) (d : PyVal) :
    pyGet (PyVal.dict e) k d = Except.ok ((dictFind e k).getD d) := rfl

theorem pyContains_dict (e : List (String × PyVal)) (k : String) :
    pyContains (PyVal.dict e) k = Except.ok (e.any (fun p => p.1 == k)) := rfl

theorem containsOk_pyContains {v : PyVal} (h : containsOk v = true) (k : String) :
    ∃ b, pyContains v k = Except.ok b := by
  cases v with
  | str s => exact ⟨_, rfl⟩
  | list l => exact ⟨_, rfl⟩
  | dict e => exact ⟨_, rfl⟩
  | int n => simp [containsOk] at h
  | bool b => simp [containsOk] at h
  | none => simp [containsOk] at h

theorem stripOk_pyStripHtml {v : PyVal} (h : stripOk v = true) :
    ∃ t, pyStripHtml v = Except.ok t := by
  unfold pyStripHtml
  by_cases hf : pyFalsy v = true
  · rw [if_pos hf]
    exact ⟨"", rfl⟩
  · rw [if_neg hf]
    unfold stripOk at h
    rw [Bool.or_eq_true] at h
    rcases h with h | h
    · exact absurd h hf
    · cases v with
      | str s => exact ⟨_, rfl⟩
      | int n => simp at h
      | bool b => simp at h
      | none => simp at h
      | list l => simp at h
      | dict e => simp at h

theorem dictFind_isSome_of_any {e : List (String × PyVal)} {k : String}
    (h : e.any (fun p => p.1 == k) = true) : ∃ v, dictFind e k = some v := by
  rcases List.any_eq_true.1 h with ⟨p, hp, hpk⟩
  have hsome : (e.find? (fun p => p.1 == k)).isSome := by
    rw [List.find?_isSome]
    exact ⟨p, hp, hpk⟩
  obtain ⟨q, hq⟩ := Option.isSome_iff_exists.1 hsome
  refine ⟨q.2, ?_⟩
  unfold dictFind
  rw [hq]
  rfl

theorem any_eq_false_of_dictFind_none {e : List (String × PyVal)} {k : String}
    (h : dictFind e k = Option.none) : e.any (fun p => p.1 == k) = false := by
  cases hb : e.any (fun p => p.1 == k) with
  | false => rfl
  | true =>
    obtain ⟨v, hv⟩ := dictFind_isSome_of_any hb
    rw [h] at hv
    exact Option.noConfusion hv

theorem any_eq_true_of_dictFind_some {e : List (String × PyVal)} {k : String} {v : PyVal}
    (h : dictFind e k = some v) : e.any (fun p => p.1 == k) = true := by
  unfold dictFind at h
  cases hq : e.find? (fun p => p.1 == k) with
  | none => rw [hq] at h; exact absurd h (by simp)
  | some q =>
    have hpk0 := List.find?_some hq
    have hpk : (q.1 == k) = true := hpk0
    exact List.any_eq_true.2 ⟨q, List.mem_of_find?_eq_some hq, hpk⟩

theorem dictFind_mem {e : List (String × PyVal)} {k : String} {v : PyVal}
    (h : dictFind e k = some v) : ∃ p ∈ e, p.1 = k ∧ p.2 = v := by
  unfold dictFind at h
  cases hq : e.find? (fun p => p.1 == k) with
  | none => rw [hq] at h; exact absurd h (by simp)
  | some q =>
    rw [hq] at h
    simp only [Option.map_some', Option.some.injEq] at h
    have hpk0 := List.find?_some hq
    have hpk : (q.1 == k) = true := hpk0
    exact ⟨q, List.mem_of_find?_eq_some hq, beq_iff_eq.1 hpk, h⟩

theorem pyGetItem_ok {e : List (String × PyVal)} {k : String} {v : PyVal}
    (h : dictFind e k = some v) : pyGetItem (PyVal.dict e) k = Except.ok v := by
  show (match dictFind e k with
    | some v => Except.ok v
    | Option.none => Except.error "KeyError") = Except.ok v
  rw [h]

theorem rowsLoop_total : ∀ (rows : List PyVal), (∀ r ∈ rows, wsRow r = true) →
    ∃ r, rowsLoop rows = Except.ok r ∧ ∀ v ∈ r, isStrPy v = true := by
  intro rows
  induction rows with
  | nil => intro _; exact ⟨[], rfl, by simp⟩
  | cons row rest ih =>
    intro hall
    have hrow := hall row (List.mem_cons_self _ _)
    obtain ⟨more, hmore, hstr⟩ := ih (fun r hr => hall r (List.mem_cons_of_mem _ hr))
    cases row with
    | dict re =>
      rw [rowsLoop]
      cases hfind : dictFind re "parameter" with
      | none =>
        have hcont : pyContains (PyVal.dict re) "parameter" = Except.ok false := by
          rw [pyContains_dict, any_eq_false_of_dictFind_none hfind]
        rw [hcont, hmore]
        exact ⟨more, rfl, hstr⟩
      | some v =>
        simp only [wsRow] at hrow
        rw [hfind] at hrow
        cases v with
        | str s =>
          have hcont : pyContains (PyVal.dict re) "parameter" = Except.ok true := by
            rw [pyContains_dict, any_eq_true_of_dictFind_some hfind]
          rw [hcont, pyGetItem_ok hfind, hmore]
          refine ⟨PyVal.str s :: more, rfl, ?_⟩
          intro w hw
          rcases List.mem_cons.1 hw with rfl | hw
          · rfl
          · exact hstr w hw
        | int n => simp at hrow
        | bool b => simp at hrow
        | none => simp at hrow
        | list l => simp at hrow
        | dict e2 => simp at hrow
    | str s => simp [wsRow] at hrow
    | int n => simp [wsRow] at hrow
    | bool b => simp [wsRow] at hrow
    | none => simp [wsRow] at hrow
    | list l => simp [wsRow] at hrow

theorem bind_total {α β : Type} {x : Except String α} {f : α → Except String β}
    (hx : ∃ a, x = Except.ok a)
    (hf : ∀ a, x = Except.ok a → ∃ r, f a = Except.ok r) :
    ∃ r, Bind.bind x f = Except.ok r := by
  rcases hx with ⟨a, ha⟩
  rw [ha]
  exact hf a ha

theorem bindOk {α β : Type} (a : α) (f : α → Except String β) :
    Bind.bind (Except.ok a) f = f a := rfl

theorem pyStrList_total : ∀ (l : List PyVal), (∀ v ∈ l, isStrPy v = true) →
    ∃ r, pyStrList l = Except.ok r := by
  intro l
  induction l with
  | nil => intro _; exact ⟨[], rfl⟩
  | cons v rest ih =>
    intro hall
    have hv := hall v (List.mem_cons_self _ _)
    obtain ⟨more, hmore⟩ := ih (fun w hw => hall w (List.mem_cons_of_mem _ hw))
    cases v with
    | str s =>
      rw [pyStrList, hmore]
      exact ⟨s :: more, rfl⟩
    | int n => simp [isStrPy] at hv
    | bool b => simp [isStrPy] at hv
    | none => simp [isStrPy] at hv
    | list l2 => simp [isStrPy] at hv
    | dict e2 => simp [isStrPy] at hv

theorem requestFieldsLoop_total : ∀ (rfs : List PyVal),
    (∀ q ∈ rfs, wsRequestField q = true) →
    ∃ r, requestFieldsLoop rfs = Except.ok r ∧ ∀ v ∈ r, isStrPy v = true := by
  intro rfs
  induction rfs with
  | nil => intro _; exact ⟨[], rfl, by simp⟩
  | cons q rest ih =>
    intro hall
    have hq := hall q (List.mem_cons_self _ _)
    obtain ⟨more, hmore, hstr⟩ := ih (fun w hw => hall w (List.mem_cons_of_mem _ hw))
    cases q with
    | dict re =>
      rw [requestFieldsLoop]
      cases hfind : dictFind re "basicsSubsectionTable" with
      | none =>
        have hcont : pyContains (PyVal.dict re) "basicsSubsectionTable" =
            Except.ok false := by
          rw [pyContains_dict, any_eq_false_of_dictFind_none hfind]
        rw [hcont, hmore]
        exact ⟨more, rfl, hstr⟩
      | some tbl =>
        simp only [wsRequestField] at hq
        rw [hfind] at hq
        have hcont : pyContains (PyVal.dict re) "basicsSubsectionTable" =
            Except.ok true := by
          rw [pyContains_dict, any_eq_true_of_dictFind_some hfind]
        cases tbl with
        | dict te =>
          rw [hcont]
          simp only [bindOk]
          simp only [if_true]
          rw [pyGetItem_ok hfind]
          simp only [bindOk]
          cases hfrow : dictFind te "row" with
          | none =>
            have hcont2 : pyContains (PyVal.dict te) "row" = Except.ok false := by
              rw [pyContains_dict, any_eq_false_of_dictFind_none hfrow]
            rw [hcont2]
            simp only [bindOk]
            rw [if_neg (by decide), hmore]
            exact ⟨more, rfl, hstr⟩
          | some rowsv =>
            simp only [wsTable] at hq
            rw [hfrow] at hq
            have hcont2 : pyContains (PyVal.dict te) "row" = Except.ok true := by
              rw [pyContains_dict, any_eq_true_of_dictFind_some hfrow]
            cases rowsv with
            | list rows =>
              obtain ⟨rres, hrres, hrstr⟩ :=
                rowsLoop_total rows (List.all_eq_true.1 hq)
              rw [hcont2]
              simp only [bindOk]
              simp only [if_true]
              rw [pyGetItem_ok hfrow]
              simp only [bindOk]
              have hiter : pyIter (PyVal.list rows) = Except.ok rows := rfl
              rw [hiter]
              simp only [bindOk]
              rw [hrres]
              simp only [bindOk]
              rw [hmore]
              refine ⟨rres ++ more, rfl, ?_⟩
              intro w hw
              rcases List.mem_append.1 hw with hw | hw
              · exact hrstr w hw
              · exact hstr w hw
            | str s => simp at hq
            | int n => simp at hq
            | bool b => simp at hq
            | none => simp at hq
            | dict e2 => simp at hq
        | str s => simp [wsTable] at hq
        | int n => simp [wsTable] at hq
        | bool b => simp [wsTable] at hq
        | none => simp [wsTable] at hq
        | list l2 => simp [wsTable] at hq
    | str s => simp [wsRequestField] at hq
    | int n => simp [wsRequestField] at hq
    | bool b => simp [wsRequestField] at hq
    | none => simp [wsRequestField] at hq
    | list l2 => simp [wsRequestField] at hq

theorem fieldsPart_total {ue : List (String × PyVal)}
    (h : wsUseCase (PyVal.dict ue) = true) :
    ∃ r, fieldsPart (PyVal.dict ue) = Except.ok r := by
  simp only [wsUseCase] at h
  rw [Bool.and_eq_true] at h
  obtain ⟨-, hrf⟩ := h
  rw [fieldsPart]
  cases hfind : dictFind ue "useCaseRequestFields" with
  | none =>
    have hcont : pyContains (PyVal.dict ue) "useCaseRequestFields" =
        Except.ok false := by
      rw [pyContains_dict, any_eq_false_of_dictFind_none hfind]
    rw [hcont]
    exact ⟨[], rfl⟩
  | some rfv =>
    rw [hfind] at hrf
    have hcont : pyContains (PyVal.dict ue) "useCaseRequestFields" =
        Except.ok true := by
      rw [pyContains_dict, any_eq_true_of_dictFind_some hfind]
    cases rfv with
    | list rfs =>
      obtain ⟨fields, hfields, hfstr⟩ :=
        requestFieldsLoop_total rfs (List.all_eq_true.1 hrf)
      rw [hcont]
      simp only [bindOk]
      simp only [if_true]
      rw [pyGetItem_ok hfind]
      simp only [bindOk]
      have hiter : pyIter (PyVal.list rfs) = Except.ok rfs := rfl
      rw [hiter]
      simp only [bindOk]
      rw [hfields]
      simp only [bindOk]
      by_cases hemp : fields.isEmpty = true
      · exact ⟨[], by rw [if_pos hemp]; rfl⟩
      · obtain ⟨strs, hstrs⟩ := pyStrList_total (fields.take 15)
          (fun w hw => hfstr w (List.take_subset 15 fields hw))
        rw [if_neg hemp, hstrs]
        simp only [bindOk]
        exact ⟨_, rfl⟩
    | str s => simp at hrf
    | int n => simp at hrf
    | bool b => simp at hrf
    | none => simp at hrf
    | dict e2 => simp at hrf

theorem ite_total {α : Type} (b : Bool) (x y : Except String α)
    (hx : ∃ r, x = Except.ok r) (hy : ∃ r, y = Except.ok r) :
    ∃ r, (if b = true then x else y) = Except.ok r := by
  cases b with
  | false => rw [if_neg (by decide)]; exact hy
  | true => rw [if_pos rfl]; exact hx

theorem any_beq_of_mem_mapfst {ge : List (String × PyVal)} {key : String}
    (hk : key ∈ ge.map (fun p => p.1)) :
    ge.any (fun p => p.1 == key) = true := by
  rcases List.mem_map.1 hk with ⟨p, hp, hpk⟩
  exact List.any_eq_true.2 ⟨p, hp, by simp [hpk]⟩

theorem scopesLoop_total : ∀ (subs : List PyVal),
    (∀ s ∈ subs, wsSubsection s = true) → ∃ r, scopesLoop subs = Except.ok r := by
  intro subs
  induction subs with
  | nil => intro _; exact ⟨[], rfl⟩
  | cons sub rest ih =>
    intro hall
    have hsub := hall sub (List.mem_cons_self _ _)
    obtain ⟨more, hmore⟩ := ih (fun w hw => hall w (List.mem_cons_of_mem _ hw))
    cases sub with
    | dict se =>
      simp only [wsSubsection] at hsub
      rw [Bool.and_eq_true] at hsub
      obtain ⟨hh, hb⟩ := hsub
      rw [scopesLoop, pyGet_dict]
      simp only [bindOk]
      obtain ⟨b, hbc⟩ := containsOk_pyContains hh "Scope"
      rw [hbc]
      simp only [bindOk]
      refine bind_total ?_ ?_
      · cases b with
        | false => exact ⟨[], by rw [if_neg (by decide)]; rfl⟩
        | true =>
          rw [if_pos rfl, pyGet_dict]
          simp only [bindOk]
          obtain ⟨t, ht⟩ := stripOk_pyStripHtml hb
          rw [ht]
          exact ⟨_, rfl⟩
      · intro here _
        rw [hmore]
        exact ⟨_, rfl⟩
    | str s => simp [wsSubsection] at hsub
    | int n => simp [wsSubsection] at hsub
    | bool b => simp [wsSubsection] at hsub
    | none => simp [wsSubsection] at hsub
    | list l => simp [wsSubsection] at hsub

theorem apiHeaderPart_total (ae : List (String × PyVal)) :
    ∃ r, apiHeaderPart (PyVal.dict ae) = Except.ok r := by
  rw [apiHeaderPart]
  cases hfind : dictFind ae "header" with
  | none =>
    rw [pyContains_dict, any_eq_false_of_dictFind_none hfind]
    exact ⟨[], rfl⟩
  | some v =>
    rw [pyContains_dict, any_eq_true_of_dictFind_some hfind, pyGetItem_ok hfind]
    exact ⟨_, rfl⟩

theorem apiIntroPart_total {ae : List (String × PyVal)}
    (h : ∀ i, dictFind ae "introSection" = some i → wsIntro i = true) :
    ∃ r, apiIntroPart (PyVal.dict ae) = Except.ok r := by
  rw [apiIntroPart]
  cases hfind : dictFind ae "introSection" with
  | none =>
    rw [pyContains_dict, any_eq_false_of_dictFind_none hfind]
    exact ⟨[], rfl⟩
  | some i =>
    have hi := h i hfind
    rw [pyContains_dict, any_eq_true_of_dictFind_some hfind]
    simp only [bindOk, if_true]
    rw [pyGetItem_ok hfind]
    simp only [bindOk]
    cases i with
    | dict ie =>
      simp only [wsIntro] at hi
      rw [Bool.and_eq_true] at hi
      obtain ⟨h1, h2⟩ := hi
      refine bind_total ?_ ?_
      · cases hfb : dictFind ie "introductionBodyText" with
        | none =>
          rw [pyContains_dict, any_eq_false_of_dictFind_none hfb]
          exact ⟨[], rfl⟩
        | some v =>
          rw [hfb] at h1
          have h1s : stripOk v = true := h1
          obtain ⟨t, ht⟩ := stripOk_pyStripHtml h1s
          rw [pyContains_dict, any_eq_true_of_dictFind_some hfb]
          simp only [bindOk, if_true]
          rw [pyGetItem_ok hfb]
          simp only [bindOk]
          rw [ht]
          exact ⟨_, rfl⟩
      · intro p1 _
        refine bind_total ?_ ?_
        · cases hfc : dictFind ie "codeSnippetsIntroduction" with
          | none =>
            rw [pyContains_dict, any_eq_false_of_dictFind_none hfc]
            exact ⟨[], rfl⟩
          | some cv =>
            rw [hfc] at h2
            rw [pyContains_dict, any_eq_true_of_dictFind_some hfc]
            simp only [bindOk, if_true]
            rw [pyGetItem_ok hfc]
            simp only [bindOk]
            cases cv with
            | dict ce =>
              have h2c : (match dictFind ce "code" with
                | some v => stripOk v
                | Option.none => true) = true := h2
              cases hcode : dictFind ce "code" with
              | none =>
                rw [pyContains_dict, any_eq_false_of_dictFind_none hcode]
                exact ⟨[], rfl⟩
              | some cvv =>
                rw [hcode] at h2c
                have h2s : stripOk cvv = true := h2c
                obtain ⟨t, ht⟩ := stripOk_pyStripHtml h2s
                rw [pyContains_dict, any_eq_true_of_dictFind_some hcode]
                simp only [bindOk, if_true]
                rw [pyGetItem_ok hcode]
                simp only [bindOk]
                rw [ht]
                exact ⟨_, rfl⟩
            | str s => simp at h2
            | int n => simp at h2
            | bool b => simp at h2
            | none => simp at h2
            | list l => simp at h2
        · intro p2 _
          exact ⟨_, rfl⟩
    | str s => simp [wsIntro] at hi
    | int n => simp [wsIntro] at hi
    | bool b => simp [wsIntro] at hi
    | none => simp [wsIntro] at hi
    | list l => simp [wsIntro] at hi

theorem apiScopesPart_total {ae : List (String × PyVal)}
    (h : ∀ v, dictFind ae "basicsSection" = some v →
      ∃ be, v = PyVal.dict be ∧
        ∀ sv, dictFind be "basicsSubsections" = some sv →
          ∃ subs, sv = PyVal.list subs ∧ ∀ s ∈ subs, wsSubsection s = true) :
    ∃ r, apiScopesPart (PyVal.dict ae) = Except.ok r := by
  rw [apiScopesPart]
  cases hfind : dictFind ae "basicsSection" with
  | none =>
    rw [pyContains_dict, any_eq_false_of_dictFind_none hfind]
    exact ⟨[], rfl⟩
  | some v =>
    obtain ⟨be, rfl, hsubs⟩ := h v hfind
    rw [pyContains_dict, any_eq_true_of_dictFind_some hfind]
    simp only [bindOk, if_true]
    rw [pyGetItem_ok hfind]
    simp only [bindOk]
    cases hf2 : dictFind be "basicsSubsections" with
    | none =>
      rw [pyContains_dict, any_eq_false_of_dictFind_none hf2]
      exact ⟨[], rfl⟩
    | some sv =>
      obtain ⟨subs, rfl, hall⟩ := hsubs sv hf2
      rw [pyContains_dict, any_eq_true_of_dictFind_some hf2]
      simp only [bindOk, if_true]
      rw [pyGetItem_ok hf2]
      simp only [bindOk]
      have hiter : pyIter (PyVal.list subs) = Except.ok subs := rfl
      rw [hiter]
      simp only [bindOk]
      exact scopesLoop_total subs hall

theorem useCasesLoop_total : ∀ (items : List (String × PyVal)),
    (∀ p ∈ items, wsUseCase p.2 = true) → ∃ r, useCasesLoop items = Except.ok r := by
  intro items
  induction items with
  | nil => intro _; exact ⟨[], rfl⟩
  | cons p rest ih =>
    intro hall
    obtain ⟨k, uc⟩ := p
    have huc := hall ⟨k, uc⟩ (List.mem_cons_self _ _)
    obtain ⟨more, hmore⟩ := ih (fun w hw => hall w (List.mem_cons_of_mem _ hw))
    cases uc with
    | dict ue =>
      rw [useCasesLoop]
      refine bind_total ?_ ?_
      · have huc2 := huc
        simp only [wsUseCase] at huc2
        rw [Bool.and_eq_true] at huc2
        obtain ⟨t, ht⟩ := stripOk_pyStripHtml huc2.1
        obtain ⟨lf, hlf⟩ := fieldsPart_total huc
        simp only [pyGet_dict, bindOk]
        rw [ht]
        simp only [bindOk]
        rw [hlf]
        exact ⟨_, rfl⟩
      · intro here _
        rw [hmore]
        exact ⟨_, rfl⟩
    | str s =>
      have hstep : useCasesLoop ((k, PyVal.str s) :: rest) =
          Bind.bind (useCasesLoop rest) (fun more => pure ([] ++ more)) := rfl
      rw [hstep, hmore]
      exact ⟨_, rfl⟩
    | int n =>
      have hstep : useCasesLoop ((k, PyVal.int n) :: rest) =
          Bind.bind (useCasesLoop rest) (fun more => pure ([] ++ more)) := rfl
      rw [hstep, hmore]
      exact ⟨_, rfl⟩
    | bool b =>
      have hstep : useCasesLoop ((k, PyVal.bool b) :: rest) =
          Bind.bind (useCasesLoop rest) (fun more => pure ([] ++ more)) := rfl
      rw [hstep, hmore]
      exact ⟨_, rfl⟩
    | none =>
      have hstep : useCasesLoop ((k, PyVal.none) :: rest) =
          Bind.bind (useCasesLoop rest) (fun more => pure ([] ++ more)) := rfl
      rw [hstep, hmore]
      exact ⟨_, rfl⟩
    | list l =>
      have hstep : useCasesLoop ((k, PyVal.list l) :: rest) =
          Bind.bind (useCasesLoop rest) (fun more => pure ([] ++ more)) := rfl
      rw [hstep, hmore]
      exact ⟨_, rfl⟩

theorem apiUseCasesPart_total {ae : List (String × PyVal)}
    (h : ∀ v, dictFind ae "useCaseSections" = some v →
      ∃ ue, v = PyVal.dict ue ∧ ∀ p ∈ ue, wsUseCase p.2 = true) :
    ∃ r, apiUseCasesPart (PyVal.dict ae) = Except.ok r := by
  rw [apiUseCasesPart]
  cases hfind : dictFind ae "useCaseSections" with
  | none =>
    rw [pyContains_dict, any_eq_false_of_dictFind_none hfind]
    exact ⟨[], rfl⟩
  | some v =>
    obtain ⟨ue, rfl, hall⟩ := h v hfind
    rw [pyContains_dict, any_eq_true_of_dictFind_some hfind]
    simp only [bindOk, if_true]
    rw [pyGetItem_ok hfind]
    simp only [bindOk]
    have hitems : pyItems (PyVal.dict ue) = Except.ok ue := rfl
    rw [hitems]
    simp only [bindOk]
    obtain ⟨lines, hlines⟩ := useCasesLoop_total ue hall
    rw [hlines]
    exact ⟨_, rfl⟩

theorem apiParts_total {ae : List (String × PyVal)}
    (h : wsApi (PyVal.dict ae) = true) :
    ∃ r, apiParts (PyVal.dict ae) = Except.ok r := by
  simp only [wsApi] at h
  rw [Bool.and_eq_true, Bool.and_eq_true] at h
  obtain ⟨⟨hintro, hbs⟩, huse⟩ := h
  rw [apiParts]
  refine bind_total (apiHeaderPart_total ae) ?_
  intro p1 _
  refine bind_total (apiIntroPart_total ?_) ?_
  · intro i hf
    rw [hf] at hintro
    exact hintro
  · intro p2 _
    refine bind_total (apiScopesPart_total ?_) ?_
    · intro v hf
      rw [hf] at hbs
      cases v with
      | dict be =>
        refine ⟨be, rfl, ?_⟩
        intro sv hf2
        have hbs2 : (match dictFind be "basicsSubsections" with
          | some (PyVal.list subs) => subs.all wsSubsection
          | some _ => false
          | Option.none => true) = true := hbs
        rw [hf2] at hbs2
        cases sv with
        | list subs => exact ⟨subs, rfl, List.all_eq_true.1 hbs2⟩
        | str s => simp at hbs2
        | int n => simp at hbs2
        | bool b => simp at hbs2
        | none => simp at hbs2
        | dict e2 => simp at hbs2
      | str s => simp at hbs
      | int n => simp at hbs
      | bool b => simp at hbs
      | none => simp at hbs
      | list l => simp at hbs
    · intro p3 _
      refine bind_total (apiUseCasesPart_total ?_) ?_
      · intro v hf
        rw [hf] at huse
        cases v with
        | dict ue =>
          refine ⟨ue, rfl, ?_⟩
          intro p hp
          exact List.all_eq_true.1 huse p hp
        | str s => simp at huse
        | int n => simp at huse
        | bool b => simp at huse
        | none => simp at huse
        | list l => simp at huse
      · intro p4 _
        exact ⟨_, rfl⟩

theorem itemsLoop_total : ∀ (items : List PyVal),
    (∀ it ∈ items, wsItem it = true) → ∃ r, itemsLoop items = Except.ok r := by
  intro items
  induction items with
  | nil => intro _; exact ⟨[], rfl⟩
  | cons item rest ih =>
    intro hall
    have hit := hall item (List.mem_cons_self _ _)
    obtain ⟨more, hmore⟩ := ih (fun w hw => hall w (List.mem_cons_of_mem _ hw))
    cases item with
    | dict ie =>
      rw [itemsLoop]
      refine bind_total ?_ ?_
      · refine bind_total ?_ ?_
        · cases hfa : dictFind ie "subSectionHeader" with
          | none =>
            rw [pyContains_dict, any_eq_false_of_dictFind_none hfa]
            exact ⟨[], rfl⟩
          | some v =>
            rw [pyContains_dict, any_eq_true_of_dictFind_some hfa, pyGetItem_ok hfa]
            exact ⟨_, rfl⟩
        · intro a _
          refine bind_total ?_ ?_
          · cases hfb : dictFind ie "bodyText" with
            | none =>
              rw [pyContains_dict, any_eq_false_of_dictFind_none hfb]
              exact ⟨[], rfl⟩
            | some v =>
              have hst : stripOk v = true := by
                simp only [wsItem] at hit
                rw [hfb] at hit
                exact hit
              obtain ⟨t, ht⟩ := stripOk_pyStripHtml hst
              rw [pyContains_dict, any_eq_true_of_dictFind_some hfb]
              simp only [bindOk, if_true]
              rw [pyGetItem_ok hfb]
              simp only [bindOk]
              rw [ht]
              exact ⟨_, rfl⟩
          · intro b _
            exact ⟨_, rfl⟩
      · intro here _
        rw [hmore]
        exact ⟨_, rfl⟩
    | str s =>
      have hstep : itemsLoop (PyVal.str s :: rest) =
          Bind.bind (itemsLoop rest) (fun more => pure ([] ++ more)) := rfl
      rw [hstep, hmore]
      exact ⟨_, rfl⟩
    | int n =>
      have hstep : itemsLoop (PyVal.int n :: rest) =
          Bind.bind (itemsLoop rest) (fun more => pure ([] ++ more)) := rfl
      rw [hstep, hmore]
      exact ⟨_, rfl⟩
    | bool b =>
      have hstep : itemsLoop (PyVal.bool b :: rest) =
          Bind.bind (itemsLoop rest) (fun more => pure ([] ++ more)) := rfl
      rw [hstep, hmore]
      exact ⟨_, rfl⟩
    | none =>
      have hstep : itemsLoop (PyVal.none :: rest) =
          Bind.bind (itemsLoop rest) (fun more => pure ([] ++ more)) := rfl
      rw [hstep, hmore]
      exact ⟨_, rfl⟩
    | list l =>
      have hstep : itemsLoop (PyVal.list l :: rest) =
          Bind.bind (itemsLoop rest) (fun more => pure ([] ++ more)) := rfl
      rw [hstep, hmore]
      exact ⟨_, rfl⟩

theorem sectionLoop_total {ge : List (String × PyVal)} : ∀ (keys : List String),
    (∀ key ∈ keys, ge.any (fun p => p.1 == key) = true) →
    (∀ key v, strStartsWith key "contentSection" = true →
      dictFind ge key = some v → wsSection v = true) →
    ∃ r, sectionLoop (PyVal.dict ge) keys = Except.ok r := by
  intro keys
  induction keys with
  | nil => intro _ _; exact ⟨[], rfl⟩
  | cons key rest ih =>
    intro hkeys hsec
    obtain ⟨more, hmore⟩ := ih (fun w hw => hkeys w (List.mem_cons_of_mem _ hw)) hsec
    rw [sectionLoop]
    refine bind_total ?_ ?_
    · by_cases hsw : strStartsWith key "contentSection" = true
      · rw [if_pos hsw]
        obtain ⟨s, hfind⟩ :=
          dictFind_isSome_of_any (hkeys key (List.mem_cons_self _ _))
        rw [pyGetItem_ok hfind]
        simp only [bindOk]
        have hws := hsec key s hsw hfind
        cases s with
        | dict se =>
          refine bind_total ?_ ?_
          · cases hfa : dictFind se "sectionHeader" with
            | none =>
              rw [pyContains_dict, any_eq_false_of_dictFind_none hfa]
              exact ⟨[], rfl⟩
            | some v =>
              rw [pyContains_dict, any_eq_true_of_dictFind_some hfa, pyGetItem_ok hfa]
              exact ⟨_, rfl⟩
          · intro a _
            refine bind_total ?_ ?_
            · simp only [wsSection] at hws
              cases hfb : dictFind se "contentBody" with
              | none =>
                rw [pyContains_dict, any_eq_false_of_dictFind_none hfb]
                exact ⟨[], rfl⟩
              | some cb =>
                rw [hfb] at hws
                rw [pyContains_dict, any_eq_true_of_dictFind_some hfb]
                simp only [bindOk, if_true]
                rw [pyGetItem_ok hfb]
                simp only [bindOk]
                cases cb with
                | list its =>
                  have hslice : pySlice3 (PyVal.list its) =
                      Except.ok (its.take 3) := rfl
                  rw [hslice]
                  simp only [bindOk]
                  refine itemsLoop_total (its.take 3) ?_
                  intro it hitm
                  exact List.all_eq_true.1 hws it (List.take_subset 3 its hitm)
                | str s2 =>
                  have hslice : pySlice3 (PyVal.str s2) = Except.ok
                      ((s2.data.take 3).map (fun c => PyVal.str (String.mk [c]))) := rfl
                  rw [hslice]
                  simp only [bindOk]
                  refine itemsLoop_total _ ?_
                  intro it hitm
                  rcases List.mem_map.1 hitm with ⟨c, -, rfl⟩
                  rfl
                | int n => simp at hws
                | bool b => simp at hws
                | none => simp at hws
                | dict e2 => simp at hws
            · intro b _
              exact ⟨_, rfl⟩
        | str s1 => simp [wsSection] at hws
        | int n => simp [wsSection] at hws
        | bool b => simp [wsSection] at hws
        | none => simp [wsSection] at hws
        | list l => simp [wsSection] at hws
      · rw [if_neg hsw]
        exact ⟨[], rfl⟩
    · intro here _
      rw [hmore]
      exact ⟨_, rfl⟩

theorem guideHeaderPart_total {ge : List (String × PyVal)}
    (h : ∀ v, dictFind ge "headerSection" = some v →
      ∃ he, v = PyVal.dict he ∧
        ∀ iv, dictFind he "introText" = some iv → stripOk iv = true) :
    ∃ r, guideHeaderPart (PyVal.dict ge) = Except.ok r := by
  rw [guideHeaderPart]
  cases hfind : dictFind ge "headerSection" with
  | none =>
    rw [pyContains_dict, any_eq_false_of_dictFind_none hfind]
    exact ⟨[], rfl⟩
  | some v =>
    obtain ⟨he, rfl, hintro⟩ := h v hfind
    rw [pyContains_dict, any_eq_true_of_dictFind_some hfind]
    simp only [bindOk, if_true]
    rw [pyGetItem_ok hfind]
    simp only [bindOk]
    rw [pyGet_dict]
    simp only [bindOk]
    cases hfi : dictFind he "introText" with
    | none =>
      rw [pyContains_dict, any_eq_false_of_dictFind_none hfi]
      exact ⟨_, rfl⟩
    | some iv =>
      obtain ⟨t, ht⟩ := stripOk_pyStripHtml (hintro iv hfi)
      rw [pyContains_dict, any_eq_true_of_dictFind_some hfi]
      simp only [bindOk, if_true]
      rw [pyGetItem_ok hfi]
      simp only [bindOk]
      rw [ht]
      exact ⟨_, rfl⟩

theorem guideParts_total {ge : List (String × PyVal)}
    (h : wsGuide (PyVal.dict ge) = true) :
    ∃ r, guideParts (PyVal.dict ge) = Except.ok r := by
  simp only [wsGuide] at h
  rw [Bool.and_eq_true] at h
  obtain ⟨hhead, hsecs⟩ := h
  rw [guideParts]
  refine bind_total (guideHeaderPart_total ?_) ?_
  · intro v hf
    rw [hf] at hhead
    cases v with
    | dict he =>
      refine ⟨he, rfl, ?_⟩
      intro iv hfi
      have hh2 : (match dictFind he "introText" with
        | some v => stripOk v
        | Option.none => true) = true := hhead
      rw [hfi] at hh2
      exact hh2
    | str s => simp at hhead
    | int n => simp at hhead
    | bool b => simp at hhead
    | none => simp at hhead
    | list l => simp at hhead
  · intro p1 _
    have hkeys : pyKeys (PyVal.dict ge) = Except.ok (ge.map (fun p => p.1)) := rfl
    rw [hkeys]
    simp only [bindOk]
    have hsec : ∀ key v, strStartsWith key "contentSection" = true →
        dictFind ge key = some v → wsSection v = true := by
      intro key v hsw hfind
      obtain ⟨p, hp, hpk, hpv⟩ := dictFind_mem hfind
      have h2 : (if strStartsWith p.1 "contentSection" = true
          then wsSection p.2 else true) = true := List.all_eq_true.1 hsecs p hp
      rw [hpk, if_pos hsw, hpv] at h2
      exact h2
    obtain ⟨p2, hp2⟩ := sectionLoop_total (sSort strLe (ge.map (fun p => p.1)))
      (fun key hk => any_beq_of_mem_mapfst (mem_sSort hk)) hsec
    rw [hp2]
    exact ⟨_, rfl⟩

theorem elifGuideBranch_total (doc_type : String) {ce : List (String × PyVal)}
    (h : ∀ g, dictFind ce "gatewayGuides" = some g → wsGuide g = true) :
    ∃ r, elifGuideBranch doc_type (PyVal.dict ce) = Except.ok r := by
  rw [elifGuideBranch]
  by_cases hdt : (doc_type == "guide") = true
  · rw [if_pos hdt]
    cases hfg : dictFind ce "gatewayGuides" with
    | none =>
      rw [pyContains_dict, any_eq_false_of_dictFind_none hfg]
      exact ⟨[], rfl⟩
    | some g =>
      have hg := h g hfg
      rw [pyContains_dict, any_eq_true_of_dictFind_some hfg]
      simp only [bindOk, if_true]
      rw [pyGetItem_ok hfg]
      simp only [bindOk]
      cases g with
      | dict ge => exact guideParts_total hg
      | str s => simp [wsGuide] at hg
      | int n => simp [wsGuide] at hg
      | bool b => simp [wsGuide] at hg
      | none => simp [wsGuide] at hg
      | list l => simp [wsGuide] at hg
  · rw [if_neg hdt]
    exact ⟨[], rfl⟩

theorem branchParts_total (doc_type : String) {ce : List (String × PyVal)}
    (h : wellShapedDoc (PyVal.dict ce) = true) :
    ∃ r, branchParts doc_type (PyVal.dict ce) = Except.ok r := by
  simp only [wellShapedDoc] at h
  rw [Bool.and_eq_true] at h
  obtain ⟨hapi, hgui⟩ := h
  have hgui2 : ∀ g, dictFind ce "gatewayGuides" = some g → wsGuide g = true := by
    intro g hf
    rw [hf] at hgui
    exact hgui
  rw [branchParts]
  by_cases hdt : (doc_type == "api_reference") = true
  · rw [if_pos hdt]
    cases hfa : dictFind ce "APIReference" with
    | none =>
      rw [pyContains_dict, any_eq_false_of_dictFind_none hfa]
      simp only [bindOk]
      rw [if_neg (by decide)]
      exact elifGuideBranch_total doc_type hgui2
    | some a =>
      rw [hfa] at hapi
      have hapi2 : wsApi a = true := hapi
      rw [pyContains_dict, any_eq_true_of_dictFind_some hfa]
      simp only [bindOk, if_true]
      rw [pyGetItem_ok hfa]
      simp only [bindOk]
      cases a with
      | dict ae => exact apiParts_total hapi2
      | str s => simp [wsApi] at hapi2
      | int n => simp [wsApi] at hapi2
      | bool b => simp [wsApi] at hapi2
      | none => simp [wsApi] at hapi2
      | list l => simp [wsApi] at hapi2
  · rw [if_neg hdt]
    exact elifGuideBranch_total doc_type hgui2

theorem detect_document_type_total (ce : List (String × PyVal)) (filepath : String) :
    ∃ t, detect_document_type (PyVal.dict ce) filepath = Except.ok t := by
  simp only [detect_document_type]
  refine ite_total _ _ _ ⟨_, rfl⟩ ?_
  refine ite_total _ _ _ ⟨_, rfl⟩ ?_
  refine ite_total _ _ _ ⟨_, rfl⟩ ?_
  refine ite_total _ _ _ ⟨_, rfl⟩ ?_
  refine bind_total ⟨_, pyContains_dict ce "APIReference"⟩ ?_
  intro b1 _
  refine ite_total _ _ _ ⟨_, rfl⟩ ?_
  refine bind_total ⟨_, pyContains_dict ce "gatewayGuides"⟩ ?_
  intro b2 _
  exact ite_total _ _ _ ⟨_, rfl⟩ ⟨_, rfl⟩

theorem assembleSummary_total (filepath : String) {ce : List (String × PyVal)}
    (h : wellShapedDoc (PyVal.dict ce) = true) :
    ∃ s, assembleSummary filepath (PyVal.dict ce) = Except.ok s := by
  rw [assembleSummary]
  refine bind_total (detect_document_type_total ce filepath) ?_
  intro doc_type _
  refine bind_total (branchParts_total doc_type h) ?_
  intro parts _
  exact ⟨_, rfl⟩

theorem ite_pure_total {α : Type} (c : Prop) [Decidable c] (x y : α) :
    ∃ r, (if c then (pure x : Except String α) else pure y) = Except.ok r := by
  by_cases h : c
  · exact ⟨x, by rw [if_pos h]; rfl⟩
  · exact ⟨y, by rw [if_neg h]; rfl⟩

/-- C5 (amended): `prepare_document_summary` never raises on a well-shaped
document. For every filepath, every `max_chars`, and every content tree
satisfying the decidable shape predicate `wellShapedDoc` — the tree is a
mapping and every field the summariser may access, when present, has the
type the code expects; missing fields are silently omitted — the function
returns a string. (On arbitrary trees the original totality claim fails:
see the counterexample, where a guide content section holding an integer
raises `TypeError` inside `"sectionHeader" in section`.) -/
theorem C5_summary_total (filepath : String) (content : PyVal) (max_chars : Int)
    (h : wellShapedDoc content = true) :
    ∃ s, prepare_document_summary filepath content max_chars = Except.ok s := by
  cases content with
  | dict ce =>
    rw [prepare_document_summary]
    refine bind_total (assembleSummary_total filepath h) ?_
    intro full _
    exact ite_pure_total _ _ _
  | str s => simp [wellShapedDoc] at h
  | int n => simp [wellShapedDoc] at h
  | bool b => simp [wellShapedDoc] at h
  | none => simp [wellShapedDoc] at h
  | list l => simp [wellShapedDoc] at h

/-- Witness for C5: a concrete well-shaped guide document on which the
summariser returns a string. -/
theorem C5_summary_total_witness :
    wellShapedDoc (PyVal.dict [("gatewayGuides", PyVal.dict
      [("headerSection", PyVal.dict
        [("header", PyVal.str "H"), ("introText", PyVal.str "<p>hi</p>")])])]) = true ∧
    ∃ s, prepare_document_summary "guides/a.json"
      (PyVal.dict [("gatewayGuides", PyVal.dict
        [("headerSection", PyVal.dict
          [("header", PyVal.str "H"), ("introText", PyVal.str "<p>hi</p>")])])])
      50 = Except.ok s :=
  ⟨by decide,
   C5_summary_total "guides/a.json"
     (PyVal.dict [("gatewayGuides", PyVal.dict
       [("headerSection", PyVal.dict
         [("header", PyVal.str "H"), ("introText", PyVal.str "<p>hi</p>")])])])
     50 (by decide)⟩
